import Mathlib

/-!
# Trie over lowercase words (`Trie.c`)

A shallow embedding of `Trie.c` and the properties of its operations.

Modelling conventions:

* A C string (`char*`) is `Option (List Char)`: `none` is the NULL pointer, `some w` is the
  list of the characters that stand before the terminating `STRING_END_CHAR` (so a list
  holding the NUL character stands for no C string).  Reaching the end of the list is
  reading the terminator.  `word` points at the first character of its storage: reading
  `word[i]` at a negative `i` is a read outside the word.  The counters that index a word
  are `short`, as in the source; they wrap from 32767 to -32768.
* A `Node*` is `Option Node`; a `Node` owns its 26 child pointers, so the heap reachable from
  a trie is a finite tree and in-place updates are modelled by rebuilding the path that the
  code walks.
* A `Trie*` is `Option Trie`.  An operation of return type `void` returns the state of the
  object `obj` points to after the call.
* `malloc` succeeds in `nodeCreate` and `trieCreate`, which return fresh objects; the
  functions named `*Alloc` are `trieInsert` with a `malloc` that can fail.  `free` is not
  modelled: a node that `nodeFree` releases is a node that is no longer in the tree.
* Behaviour that C leaves undefined (dereferencing NULL, indexing `pointerArray` outside
  `0..25`, reading before the start of a word) is an explicit `Fault`; every operation
  returns `Except Fault _`.
-/

namespace TrieC

/-! ## Constants -/

abbrev TRIE_ALPHABET_SIZE : Nat := 26

def A_LOWERCASE_CHAR : Char := 'a'

def Z_LOWERCASE_CHAR : Char := 'z'

/-! ## Data model -/

/-- Undefined behaviour of the C program, made explicit. -/
inductive Fault where
  | nullDereference
  | outOfBounds
  deriving DecidableEq, Repr

deriving instance DecidableEq for Except

/-- The struct `Node`: 26 child pointers (`none` is NULL) and the end-of-word flag. -/
inductive Node where
  | mk (pointerArray : Fin TRIE_ALPHABET_SIZE → Option Node) (isEndNode : Bool) : Node

/-- Field `pointerArray` of a node. -/
def Node.pointerArray : Node → Fin TRIE_ALPHABET_SIZE → Option Node
  | .mk f _ => f

/-- Field `isEndNode` of a node. -/
def Node.isEndNode : Node → Bool
  | .mk _ e => e

/-- The struct `Trie`: an owning pointer to the root node (`none` is NULL). -/
structure Trie where
  root : Option Node

/-- The C string type: NULL or the characters before the terminator. -/
abbrev CString := Option (List Char)

/-! ## Array access -/

/-- The value of the expression `letter - A_LOWERCASE_CHAR` (computed in `int`). -/
def letterArrayIndex (letter : Char) : Int :=
  (letter.toNat : Int) - (A_LOWERCASE_CHAR.toNat : Int)

/-- The slot of `pointerArray` an `int` index designates, when there is one. -/
def slotOf (i : Int) : Option (Fin TRIE_ALPHABET_SIZE) :=
  if h : 0 ≤ i ∧ i < TRIE_ALPHABET_SIZE then some ⟨i.toNat, by omega⟩ else none

/-- Reading `array[i]`. -/
def arrayRead (array : Fin TRIE_ALPHABET_SIZE → Option Node) (i : Int) :
    Except Fault (Option Node) :=
  match slotOf i with
  | some s => .ok (array s)
  | none => .error .outOfBounds

/-- The array after the assignment `array[s] = v`. -/
def arrayUpdate (array : Fin TRIE_ALPHABET_SIZE → Option Node) (s : Fin TRIE_ALPHABET_SIZE)
    (v : Option Node) : Fin TRIE_ALPHABET_SIZE → Option Node :=
  fun j => if j = s then v else array j

/-- The node after the assignment `node->pointerArray[i] = v`. -/
def nodeWrite (node : Node) (i : Int) (v : Option Node) : Except Fault Node :=
  match slotOf i with
  | some s => .ok (.mk (arrayUpdate node.pointerArray s v) node.isEndNode)
  | none => .error .outOfBounds

/-- The node after the assignment `node->isEndNode = b`. -/
def nodeSetEnd (node : Node) (b : Bool) : Node :=
  .mk node.pointerArray b

/-! ## Node functions -/

/-- Source `nodeCreate` (allocation succeeding): all slots NULL, `isEndNode` false. -/
def nodeCreate : Node :=
  .mk (fun _ => none) false

/-- Source `getNextNode`. -/
def getNextNode (currentNode : Option Node) (letter : Char) : Except Fault (Option Node) :=
  match currentNode with
  | none => .ok none
  | some node => arrayRead node.pointerArray (letterArrayIndex letter)

/-- Source `nodeIsEmpty`: no slot of the node holds a child. -/
def nodeIsEmpty (node : Node) : Bool :=
  (List.finRange TRIE_ALPHABET_SIZE).all fun i => (node.pointerArray i).isNone

/-! ## Trie functions -/

/-- Source `trieCreate` (allocation succeeding): a trie whose root is a fresh node. -/
def trieCreate : Option Trie :=
  some { root := some nodeCreate }

/-! ## Word indexing

The counters that index a word (`i`, `index`, `depth`) have type `short`.  In the loops below
the argument `rest` holds the characters of the word from the position the counter designates
on; as long as the counter has not wrapped it is that position, and once it has wrapped it is
negative and the next read of the word lies before its first character. -/

/-- The value a `short` holds after an `int` is stored in it (two's complement wrap). -/
def toShort (i : Int) : Int :=
  (i + 32768) % 65536 - 32768

/-- The loop of `isValidLowercaseWord`: `i` is the counter, `rest` the word from there on.
Reading `word[i]` at a negative `i` is a read outside the word. -/
def isValidLowercaseLoop (i : Int) (rest : List Char) : Except Fault Bool :=
  if i < 0 then .error .outOfBounds
  else
    match rest with
    | [] => .ok true
    | c :: rest1 =>
      if c > Z_LOWERCASE_CHAR || c < A_LOWERCASE_CHAR then .ok false
      else isValidLowercaseLoop (toShort (i + 1)) rest1

/-- Source `isValidLowercaseWord`. -/
def isValidLowercaseWord (word : CString) : Except Fault Bool :=
  match word with
  | none => .ok false
  | some w => isValidLowercaseLoop 0 w

/-- The loop of `trieInsert`, with the counter `index`, from `currentNode` over the remaining
characters; the result is `currentNode` with the updates the loop makes beneath it.
`currentNode = none` is a NULL cursor: the first write through it faults.  The test
`word[index + 1] == STRING_END_CHAR` is computed in `int` and reads the character after the
current one. -/
def trieInsertLoop (index : Int) (currentNode : Option Node) (rest : List Char) :
    Except Fault (Option Node) :=
  if index < 0 then .error .outOfBounds
  else
    match rest with
    | [] => .ok currentNode
    | letter :: rest1 => do
      let nextNode ← getNextNode currentNode letter
      match currentNode with
      | none => .error .nullDereference
      | some node =>
        let node1 ← (match nextNode with
          | none => nodeWrite node (letterArrayIndex letter) (some nodeCreate)
          | some _ => .ok node)
        let child ← arrayRead node1.pointerArray (letterArrayIndex letter)
        match child with
        | none => .error .nullDereference
        | some c =>
          let c1 := if rest1.isEmpty then nodeSetEnd c true else c
          let c2 ← trieInsertLoop (toShort (index + 1)) (some c1) rest1
          let node2 ← nodeWrite node1 (letterArrayIndex letter) c2
          .ok (some node2)

/-- Source `trieInsert`. -/
def trieInsert (obj : Option Trie) (word : CString) : Except Fault (Option Trie) := do
  let valid ← isValidLowercaseWord word
  if !valid then .ok obj
  else
    match obj, word with
    | none, _ => .error .nullDereference
    | some _, none => .error .nullDereference
    | some t, some w => do
      let r ← trieInsertLoop 0 t.root w
      .ok (some { root := r })

/-- The loop of `getLastNodeOfWord`, with the counter `index`, from `lastNode` over the
remaining characters. -/
def getLastNodeLoop (index : Int) (lastNode : Option Node) (rest : List Char) :
    Except Fault (Option Node) :=
  if index < 0 then .error .outOfBounds
  else
    match rest with
    | [] => .ok lastNode
    | letter :: rest1 => do
      let nextNode ← getNextNode lastNode letter
      match nextNode with
      | none => .ok none
      | some _ =>
        let lastNode1 ← getNextNode lastNode letter
        getLastNodeLoop (toShort (index + 1)) lastNode1 rest1

/-- Source `getLastNodeOfWord`. -/
def getLastNodeOfWord (obj : Option Trie) (word : CString) : Except Fault (Option Node) :=
  match obj, word with
  | none, _ => .error .nullDereference
  | some _, none => .error .nullDereference
  | some t, some w => getLastNodeLoop 0 t.root w

/-- Source `trieSearch`. -/
def trieSearch (obj : Option Trie) (word : CString) : Except Fault Bool :=
  match obj, word with
  | _, none => .ok false
  | none, _ => .ok false
  | some t, some w =>
    if t.root.isNone then .ok false
    else do
      let lastLetterNode ← getLastNodeOfWord (some t) (some w)
      match lastLetterNode with
      | none => .ok false
      | some node => if node.isEndNode == false then .ok false else .ok true

/-- Source `recursiveRemove`; `rest` holds the characters of `wordToDelete` from position
`depth` on.  The argument `depth + 1` of the recursive call is stored in the `short`
parameter.  Freed nodes leave the tree: the result is the pointer the function returns. -/
def recursiveRemove (tempRoot : Option Node) (rest : List Char) (depth : Int) :
    Except Fault (Option Node) :=
  match tempRoot with
  | none => .ok none
  | some node =>
    if depth < 0 then .error .outOfBounds
    else
      match rest with
      | [] =>
        let node1 := if node.isEndNode then nodeSetEnd node false else node
        if nodeIsEmpty node1 then .ok none else .ok (some node1)
      | currentLetter :: rest1 => do
        let nextNode ← getNextNode (some node) currentLetter
        let removed ← recursiveRemove nextNode rest1 (toShort (depth + 1))
        let node1 ← nodeWrite node (letterArrayIndex currentLetter) removed
        if nodeIsEmpty node1 && !node1.isEndNode then .ok none
        else .ok (some node1)

/-- Source `trieRemove`. -/
def trieRemove (obj : Option Trie) (word : CString) : Except Fault (Option Trie) :=
  match obj, word with
  | _, none => .ok obj
  | none, _ => .ok obj
  | some t, some w =>
    if t.root.isNone then .ok obj
    else do
      let r ← recursiveRemove t.root w 0
      .ok (some { root := r })

/-- Source `trieStartsWith`. -/
def trieStartsWith (obj : Option Trie) (pre : CString) : Except Fault Bool :=
  match obj with
  | none => .ok false
  | some t =>
    if t.root.isNone then .ok false
    else
      match pre with
      | none => .error .nullDereference
      | some [] => .ok true
      | some (c :: rest) => do
        let last ← getLastNodeOfWord (some t) (some (c :: rest))
        match last with
        | none => .ok false
        | some _ => .ok true

/-! ## Insertion when allocation can fail -/

/-- Source `nodeCreate` with `malloc` able to fail: `avail` counts the allocations that still
succeed.  The result is the new node (`none` is NULL) and the count that is left. -/
def nodeCreateAlloc (avail : Nat) : Option Node × Nat :=
  match avail with
  | 0 => (none, 0)
  | k + 1 => (some nodeCreate, k)

/-- The block `if (nextNode == NULL) { ... }` of the loop of `trieInsert`, with
`nodeCreateAlloc` for `nodeCreate`: `none` when the function returns because allocation
failed, else the node under the cursor after the block and the allocations left. -/
def trieInsertLinkAlloc (avail : Nat) (currentNode : Option Node) (letter : Char)
    (nextNode : Option Node) : Except Fault (Option (Node × Nat)) :=
  match nextNode with
  | none =>
    match nodeCreateAlloc avail with
    | (none, _) => .ok none
    | (some newNode, avail1) =>
      match currentNode with
      | none => .error .nullDereference
      | some node => do
        let node1 ← nodeWrite node (letterArrayIndex letter) (some newNode)
        .ok (some (node1, avail1))
  | some _ =>
    match currentNode with
    | none => .error .nullDereference
    | some node => .ok (some (node, avail))

/-- The loop of `trieInsert` with `malloc` able to fail; as `trieInsertLoop`, the result is
`currentNode` with the updates the loop has made beneath it when the function returns. -/
def trieInsertLoopAlloc (avail : Nat) (index : Int) (currentNode : Option Node)
    (rest : List Char) : Except Fault (Option Node) :=
  if index < 0 then .error .outOfBounds
  else
    match rest with
    | [] => .ok currentNode
    | letter :: rest1 => do
      let nextNode ← getNextNode currentNode letter
      let linked ← trieInsertLinkAlloc avail currentNode letter nextNode
      match linked with
      | none => .ok currentNode
      | some (node1, avail1) =>
        let child ← arrayRead node1.pointerArray (letterArrayIndex letter)
        match child with
        | none => .error .nullDereference
        | some c =>
          let c1 := if rest1.isEmpty then nodeSetEnd c true else c
          let c2 ← trieInsertLoopAlloc avail1 (toShort (index + 1)) (some c1) rest1
          let node2 ← nodeWrite node1 (letterArrayIndex letter) c2
          .ok (some node2)

/-- Source `trieInsert` with `malloc` able to fail after `avail` allocations. -/
def trieInsertAlloc (avail : Nat) (obj : Option Trie) (word : CString) :
    Except Fault (Option Trie) := do
  let valid ← isValidLowercaseWord word
  if !valid then .ok obj
  else
    match obj, word with
    | none, _ => .error .nullDereference
    | some _, none => .error .nullDereference
    | some t, some w => do
      let r ← trieInsertLoopAlloc avail 0 t.root w
      .ok (some { root := r })

/-! ## Paths of slots, dead nodes and reachable tries

The properties proved below speak of lowercase words, of the node a word leads to, of nodes
that are dead weight and of the tries obtained from `trieCreate` by calls of the interface.
The functions on slot paths (`List (Fin 26)`) describe what the loops of the code compute on
words whose letters all index a slot, as long as the `short` counter of the loop does not
wrap; the lemmas `getLastNodeLoop_eq_fits`, `trieInsertLoop_eq` and `recursiveRemove_eq_fits`
prove that they do. -/

/-- A character in the inclusive range `a..z`, by character code. -/
def IsLowercase (c : Char) : Prop :=
  97 ≤ c.toNat ∧ c.toNat ≤ 122

/-- The slot a lowercase letter indexes. -/
def letterSlot (letter : Char) : Fin 26 :=
  Fin.ofNat (letter.toNat - 97)

/-- The lowercase letter that indexes a slot. -/
def slotLetter (s : Fin 26) : Char :=
  Char.ofNat (97 + s.val)

/-- The slots a word indexes, letter by letter. -/
def wordPath (w : List Char) : List (Fin 26) :=
  w.map letterSlot

/-- The word spelt by a path of slots. -/
def pathWord (p : List (Fin 26)) : List Char :=
  p.map slotLetter

/-- The node reached from `cur` along a path of slots (`none` when the path leaves the tree). -/
def walkPath : Option Node → List (Fin 26) → Option Node
  | cur, [] => cur
  | none, _ :: _ => none
  | some n, s :: rest => walkPath (n.pointerArray s) rest

/-- Whether the path from `cur` ends in a node marked as end of a word. -/
def endAt (cur : Option Node) (p : List (Fin 26)) : Bool :=
  match walkPath cur p with
  | none => false
  | some n => n.isEndNode

/-- The node `n` after the insertion loop has walked the path `s :: rest` below it. -/
def insertPath : Node → List (Fin 26) → Node
  | n, [] => n
  | n, s :: rest =>
    let c := (n.pointerArray s).getD nodeCreate
    let c1 := if rest.isEmpty then nodeSetEnd c true else c
    .mk (arrayUpdate n.pointerArray s (some (insertPath c1 rest))) n.isEndNode

/-- The pointer `recursiveRemove` returns for a path of slots. -/
def removePath : Option Node → List (Fin 26) → Option Node
  | none, _ => none
  | some n, [] =>
    if nodeIsEmpty (nodeSetEnd n false) then none else some (nodeSetEnd n false)
  | some n, s :: rest =>
    let n1 := Node.mk (arrayUpdate n.pointerArray s (removePath (n.pointerArray s) rest))
      n.isEndNode
    if nodeIsEmpty n1 && !n1.isEndNode then none else some n1

/-- The node `n` after the insertion loop with `avail` allocations left has walked the path
`s :: rest` below it, or has returned on the way because an allocation failed. -/
def insertPathAlloc : Nat → Node → List (Fin 26) → Node
  | _, n, [] => n
  | avail, n, s :: rest =>
    match n.pointerArray s, avail with
    | none, 0 => n
    | none, k + 1 =>
      let c1 := if rest.isEmpty then nodeSetEnd nodeCreate true else nodeCreate
      .mk (arrayUpdate n.pointerArray s (some (insertPathAlloc k c1 rest))) n.isEndNode
    | some c, _ =>
      let c1 := if rest.isEmpty then nodeSetEnd c true else c
      .mk (arrayUpdate n.pointerArray s (some (insertPathAlloc avail c1 rest))) n.isEndNode

/-- A word of lowercase letters that the `short` counters can index: at most 32767 letters. -/
def IsShortLowercase (w : List Char) : Prop :=
  (∀ c ∈ w, IsLowercase c) ∧ w.length ≤ 32767

/-- Every node reached from `cur` lies at most `h` links below it. -/
def DepthBounded (cur : Option Node) (h : Nat) : Prop :=
  ∀ p x, walkPath cur p = some x → p.length ≤ h

/-- A walk along `p` from `cur` that starts with the counter at `i` stands on no node with
the counter above 32767. -/
def WalkFits (i : Nat) (cur : Option Node) (p : List (Fin 26)) : Prop :=
  ∀ j, j ≤ p.length → (walkPath cur (p.take j)).isSome = true → i + j ≤ 32767

/-- A word of 32768 letters `a`: one letter more than a `short` counter can count. -/
def longWord : List Char :=
  'a' :: List.replicate 32767 'a'

/-- A chain of `k` links below a node, each through slot 0; the node at its end is an end
node. -/
def chainNode : Nat → Node
  | 0 => .mk (fun _ => none) true
  | k + 1 => .mk (fun j => if j = 0 then some (chainNode k) else none) false

/-- A node that is not dead weight: it has a child or marks the end of a word. -/
def Alive (n : Node) : Prop :=
  nodeIsEmpty n = false ∨ n.isEndNode = true

/-- Every node strictly below `n` is alive. -/
def NoDeadBelow (n : Node) : Prop :=
  ∀ p x, p ≠ [] → walkPath (some n) p = some x → Alive x

/-- No dead nodes: every node of the trie other than the root has a child or is an end node. -/
def NoDead (obj : Option Trie) : Prop :=
  ∀ t n, obj = some t → t.root = some n → NoDeadBelow n

/-- Whether the root of the trie object is present. -/
def rootPresent (obj : Option Trie) : Bool :=
  match obj with
  | none => false
  | some t => t.root.isSome

/-- The tries obtained from `trieCreate` by a sequence of `trieInsert` and `trieRemove`
calls (with any arguments), each of which returns. -/
inductive Reachable : Option Trie → Prop
  | create : Reachable trieCreate
  | insert (obj obj1 : Option Trie) (word : CString) :
      Reachable obj → trieInsert obj word = .ok obj1 → Reachable obj1
  | remove (obj obj1 : Option Trie) (word : CString) :
      Reachable obj → trieRemove obj word = .ok obj1 → Reachable obj1

/-- The node at depth `d` of the path `p` from `cur` exists, has no child in a slot other than
the one the path takes next (no child at all when it is the last node of the path) and, when
it is not the last node of the path, is not an end node. -/
def DeadPathNode (cur : Option Node) (p : List (Fin 26)) (d : Nat) : Prop :=
  ∃ x, walkPath cur (p.take d) = some x ∧
    (∀ s, p[d]? ≠ some s → x.pointerArray s = none) ∧
    (d < p.length → x.isEndNode = false)

/-! ## Characters, slots and the validation loop -/

theorem not_outside_iff (c : Char) :
    (c > Z_LOWERCASE_CHAR || c < A_LOWERCASE_CHAR) = false ↔ IsLowercase c := by
  simp only [Bool.or_eq_false_iff, decide_eq_false_iff_not, gt_iff_lt, Char.lt_def,
    Z_LOWERCASE_CHAR, A_LOWERCASE_CHAR, IsLowercase]
  simp only [Char.toNat, UInt32.lt_def, BitVec.lt_def, UInt32.toNat, not_lt]
  constructor
  · rintro ⟨h1, h2⟩; exact ⟨h2, h1⟩
  · rintro ⟨h1, h2⟩; exact ⟨h2, h1⟩

theorem toShort_succ (i : Nat) (h : i + 1 ≤ 32767) :
    toShort ((i : Int) + 1) = ((i + 1 : Nat) : Int) := by
  unfold toShort
  omega

theorem toShort_wrap (i : Nat) (h : i = 32767) : toShort ((i : Int) + 1) < 0 := by
  unfold toShort
  omega

theorem isValidLowercaseLoop_neg {i : Int} (h : i < 0) (rest : List Char) :
    isValidLowercaseLoop i rest = .error .outOfBounds := by
  unfold isValidLowercaseLoop
  simp [h]

theorem isValidLowercaseLoop_nil (i : Nat) : isValidLowercaseLoop i [] = .ok true := by
  unfold isValidLowercaseLoop
  simp

theorem isValidLowercaseLoop_cons (i : Nat) (c : Char) (rest : List Char) :
    isValidLowercaseLoop i (c :: rest) =
      if c > Z_LOWERCASE_CHAR || c < A_LOWERCASE_CHAR then .ok false
      else isValidLowercaseLoop (toShort ((i : Int) + 1)) rest := by
  rw [isValidLowercaseLoop]
  simp

theorem isValidLowercaseLoop_ok_true (i : Nat) (hi : i ≤ 32767) (w : List Char) :
    isValidLowercaseLoop i w = .ok true ↔
      (∀ c ∈ w, IsLowercase c) ∧ i + w.length ≤ 32767 := by
  induction w generalizing i with
  | nil => simp [isValidLowercaseLoop_nil, hi]
  | cons c rest ih =>
    rw [isValidLowercaseLoop_cons]
    by_cases h : (c > Z_LOWERCASE_CHAR || c < A_LOWERCASE_CHAR) = false
    · have hc := (not_outside_iff c).1 h
      simp only [h, Bool.false_eq_true, if_false, List.mem_cons, forall_eq_or_imp, hc,
        true_and, List.length_cons]
      by_cases hlt : i + 1 ≤ 32767
      · rw [toShort_succ i hlt, ih (i + 1) hlt]
        constructor
        · rintro ⟨h1, h2⟩; exact ⟨h1, by omega⟩
        · rintro ⟨h1, h2⟩; exact ⟨h1, by omega⟩
      · rw [isValidLowercaseLoop_neg (toShort_wrap i (by omega))]
        constructor
        · intro h0; cases h0
        · rintro ⟨_, h2⟩; omega
    · have hc : ¬ IsLowercase c := fun hc => h ((not_outside_iff c).2 hc)
      simp only [Bool.not_eq_false] at h
      simp only [h, if_true, List.mem_cons, forall_eq_or_imp, hc, false_and]
      constructor
      · intro h0; cases h0
      · intro h0; exact h0.elim

theorem isValidLowercaseLoop_long (i : Nat) (hi : i ≤ 32767) (pre suf : List Char)
    (hlow : ∀ c ∈ pre, IsLowercase c) (hlen : 32767 < i + pre.length) :
    isValidLowercaseLoop i (pre ++ suf) = .error .outOfBounds := by
  induction pre generalizing i with
  | nil => simp at hlen; omega
  | cons c rest ih =>
    have hc := (not_outside_iff c).2 (hlow c (List.mem_cons_self _ _))
    rw [List.cons_append, isValidLowercaseLoop_cons, hc]
    simp only [Bool.false_eq_true, if_false]
    by_cases hlt : i + 1 ≤ 32767
    · rw [toShort_succ i hlt]
      exact ih (i + 1) hlt (fun d hd => hlow d (List.mem_cons_of_mem _ hd))
        (by simp at hlen; omega)
    · exact isValidLowercaseLoop_neg (toShort_wrap i (by omega)) _

theorem isValidLowercaseLoop_invalid (i : Nat) (hi : i ≤ 32767) (w : List Char)
    (h : ∃ c ∈ w.take (32768 - i), ¬ IsLowercase c) :
    isValidLowercaseLoop i w = .ok false := by
  induction w generalizing i with
  | nil => simp at h
  | cons c rest ih =>
    rw [isValidLowercaseLoop_cons]
    by_cases hcl : (c > Z_LOWERCASE_CHAR || c < A_LOWERCASE_CHAR) = false
    · have hc := (not_outside_iff c).1 hcl
      simp only [hcl, Bool.false_eq_true, if_false]
      obtain ⟨d, hd, hdl⟩ := h
      obtain ⟨m, hm⟩ : ∃ m, 32768 - i = m + 1 := ⟨32767 - i, by omega⟩
      rw [hm, List.take_succ_cons, List.mem_cons] at hd
      rcases hd with rfl | hd
      · exact absurd hc hdl
      · have hlt : i + 1 ≤ 32767 := by
          by_contra hge
          have : m = 0 := by omega
          rw [this] at hd
          simp at hd
        rw [toShort_succ i hlt]
        refine ih (i + 1) hlt ⟨d, ?_, hdl⟩
        have : 32768 - (i + 1) = m := by omega
        rw [this]
        exact hd
    · simp only [Bool.not_eq_false] at hcl
      simp [hcl]

theorem isValidLowercaseLoop_returns (i : Nat) (hi : i ≤ 32767) (w : List Char)
    (hlen : i + w.length ≤ 32767) : ∃ b, isValidLowercaseLoop i w = .ok b := by
  by_cases hlow : ∀ c ∈ w, IsLowercase c
  · exact ⟨true, (isValidLowercaseLoop_ok_true i hi w).2 ⟨hlow, hlen⟩⟩
  · refine ⟨false, isValidLowercaseLoop_invalid i hi w ?_⟩
    simp only [not_forall] at hlow
    obtain ⟨c, hc, hcl⟩ := hlow
    refine ⟨c, ?_, hcl⟩
    rw [List.take_of_length_le (by omega)]
    exact hc

theorem slotOf_letterArrayIndex {c : Char} (h : IsLowercase c) :
    slotOf (letterArrayIndex c) = some (letterSlot c) := by
  obtain ⟨h1, h2⟩ := h
  have hi : letterArrayIndex c = ((c.toNat - 97 : Nat) : Int) := by
    simp only [letterArrayIndex, A_LOWERCASE_CHAR]
    have : ('a' : Char).toNat = 97 := by decide
    rw [this]; omega
  have hlt : c.toNat - 97 < 26 := by omega
  have hsize : TRIE_ALPHABET_SIZE = 26 := rfl
  rw [hi, slotOf, dif_pos ⟨by omega, by omega⟩]
  simp only [letterSlot, Option.some.injEq]
  apply Fin.ext
  simp only [Int.toNat_ofNat, Fin.ofNat, Nat.mod_eq_of_lt hlt]

theorem slotLetter_letterSlot {c : Char} (h : IsLowercase c) :
    slotLetter (letterSlot c) = c := by
  obtain ⟨h1, h2⟩ := h
  have hlt : c.toNat - 97 < 26 := by omega
  have : 97 + (letterSlot c).val = c.toNat := by
    simp only [letterSlot, Fin.ofNat, Nat.mod_eq_of_lt hlt]; omega
  rw [slotLetter, this, Char.ofNat_toNat]

theorem letterSlot_slotLetter : ∀ s : Fin 26, letterSlot (slotLetter s) = s := by
  decide

theorem isLowercase_slotLetter : ∀ s : Fin 26, IsLowercase (slotLetter s) := by
  unfold IsLowercase; decide

theorem pathWord_wordPath {w : List Char} (h : ∀ c ∈ w, IsLowercase c) :
    pathWord (wordPath w) = w := by
  induction w with
  | nil => rfl
  | cons c rest ih =>
    have hc := h c (List.mem_cons_self _ _)
    have hr := ih (fun d hd => h d (List.mem_cons_of_mem _ hd))
    simp only [pathWord, wordPath, List.map_cons, List.map_map] at hr ⊢
    rw [hr]
    simp [slotLetter_letterSlot hc]

theorem wordPath_pathWord (p : List (Fin 26)) : wordPath (pathWord p) = p := by
  induction p with
  | nil => rfl
  | cons s rest ih =>
    simp only [pathWord, wordPath, List.map_cons, List.map_map] at ih ⊢
    rw [ih, letterSlot_slotLetter]

theorem isLowercase_pathWord (p : List (Fin 26)) : ∀ c ∈ pathWord p, IsLowercase c := by
  intro c hc
  simp only [pathWord, List.mem_map] at hc
  obtain ⟨s, _, rfl⟩ := hc
  exact isLowercase_slotLetter s

theorem wordPath_injective {w v : List Char} (hw : ∀ c ∈ w, IsLowercase c)
    (hv : ∀ c ∈ v, IsLowercase c) (h : wordPath w = wordPath v) : w = v := by
  rw [← pathWord_wordPath hw, ← pathWord_wordPath hv, h]

theorem Node.induct (P : Node → Prop)
    (h : ∀ f e, (∀ i c, f i = some c → P c) → P (Node.mk f e)) : ∀ n, P n := by
  intro n
  refine Node.rec (motive_1 := P) (motive_2 := fun o => ∀ c, o = some c → P c) ?_ ?_ ?_ n
  · intro f e ih
    exact h f e (fun i c hc => ih i c hc)
  · intro c hc; cases hc
  · intro v hv c hc
    cases hc; exact hv

theorem Node.eta (n : Node) : Node.mk n.pointerArray n.isEndNode = n := by
  cases n; rfl

@[simp] theorem pointerArray_mk (f : Fin 26 → Option Node) (e : Bool) :
    (Node.mk f e).pointerArray = f := rfl

@[simp] theorem isEndNode_mk (f : Fin 26 → Option Node) (e : Bool) :
    (Node.mk f e).isEndNode = e := rfl

@[simp] theorem pointerArray_nodeSetEnd (n : Node) (b : Bool) :
    (nodeSetEnd n b).pointerArray = n.pointerArray := rfl

@[simp] theorem isEndNode_nodeSetEnd (n : Node) (b : Bool) :
    (nodeSetEnd n b).isEndNode = b := rfl

theorem nodeSetEnd_self (n : Node) : nodeSetEnd n n.isEndNode = n := by
  cases n; rfl

@[simp] theorem arrayUpdate_same (f : Fin 26 → Option Node) (s : Fin 26) (v : Option Node) :
    arrayUpdate f s v s = v := by
  simp [arrayUpdate]

theorem arrayUpdate_other (f : Fin 26 → Option Node) {s j : Fin 26} (v : Option Node)
    (h : j ≠ s) : arrayUpdate f s v j = f j := by
  simp [arrayUpdate, h]

theorem arrayUpdate_idem (f : Fin 26 → Option Node) (s : Fin 26) (a b : Option Node) :
    arrayUpdate (arrayUpdate f s a) s b = arrayUpdate f s b := by
  funext j; by_cases h : j = s <;> simp [arrayUpdate, h]

theorem arrayUpdate_eq_self (f : Fin 26 → Option Node) (s : Fin 26) :
    arrayUpdate f s (f s) = f := by
  funext j; by_cases h : j = s <;> simp [arrayUpdate, h]

theorem nodeIsEmpty_eq_true (n : Node) :
    nodeIsEmpty n = true ↔ ∀ s, n.pointerArray s = none := by
  simp [nodeIsEmpty, List.all_eq_true, List.mem_finRange]

theorem nodeIsEmpty_eq_false (n : Node) :
    nodeIsEmpty n = false ↔ ∃ s c, n.pointerArray s = some c := by
  rw [← Bool.not_eq_true, nodeIsEmpty_eq_true]
  constructor
  · intro h
    by_contra hne
    apply h
    intro s
    cases hs : n.pointerArray s with
    | none => rfl
    | some c => exact absurd ⟨s, c, hs⟩ hne
  · rintro ⟨s, c, hs⟩ h
    rw [h s] at hs; cases hs

@[simp] theorem nodeIsEmpty_nodeSetEnd (n : Node) (b : Bool) :
    nodeIsEmpty (nodeSetEnd n b) = nodeIsEmpty n := rfl

theorem nodeIsEmpty_nodeCreate : nodeIsEmpty nodeCreate = true := by
  rw [nodeIsEmpty_eq_true]; intro s; rfl

/-! ## Walking a path -/

@[simp] theorem walkPath_nil (o : Option Node) : walkPath o [] = o := by
  cases o <;> rfl

@[simp] theorem walkPath_none (p : List (Fin 26)) : walkPath none p = none := by
  cases p <;> rfl

@[simp] theorem walkPath_cons (n : Node) (s : Fin 26) (p : List (Fin 26)) :
    walkPath (some n) (s :: p) = walkPath (n.pointerArray s) p := rfl

theorem walkPath_append (o : Option Node) (p q : List (Fin 26)) :
    walkPath o (p ++ q) = walkPath (walkPath o p) q := by
  induction p generalizing o with
  | nil => simp
  | cons s rest ih =>
    cases o with
    | none => simp
    | some n => simp [ih]

@[simp] theorem endAt_none (p : List (Fin 26)) : endAt none p = false := by
  simp [endAt]

@[simp] theorem endAt_nil (n : Node) : endAt (some n) [] = n.isEndNode := by
  simp [endAt]

@[simp] theorem endAt_cons (n : Node) (s : Fin 26) (p : List (Fin 26)) :
    endAt (some n) (s :: p) = endAt (n.pointerArray s) p := by
  simp [endAt]

theorem walkPath_isSome_of_endAt (o : Option Node) (p q : List (Fin 26))
    (h : endAt o (p ++ q) = true) : (walkPath o p).isSome = true := by
  unfold endAt at h
  rw [walkPath_append] at h
  cases hw : walkPath o p with
  | none => rw [hw] at h; simp at h
  | some x => rfl

theorem walkPath_take_isSome {o : Option Node} {x : Node} {p : List (Fin 26)}
    (hx : walkPath o p = some x) (d : Nat) : (walkPath o (p.take d)).isSome = true := by
  have h := walkPath_append o (p.take d) (p.drop d)
  rw [List.take_append_drop, hx] at h
  cases hw : walkPath o (p.take d) with
  | none => rw [hw, walkPath_none] at h; cases h
  | some y => rfl

theorem not_prefix_take_append {p : List (Fin 26)} {d : Nat} {s : Fin 26}
    (hd : d ≤ p.length) (hs : p[d]? ≠ some s) : ¬ (p.take d ++ [s]) <+: p := by
  intro hpre
  obtain ⟨t, ht⟩ := hpre
  apply hs
  have hlen : (p.take d).length = d := List.length_take_of_le hd
  have h1 : (p.take d ++ [s] ++ t)[d]? = some s := by
    rw [List.append_assoc, List.getElem?_append_right (by omega)]
    simp [hlen]
  rw [ht] at h1
  exact h1

/-! ## Insertion along a path -/

theorem insertPath_cons (n : Node) (s : Fin 26) (rest : List (Fin 26)) :
    insertPath n (s :: rest) =
      .mk (arrayUpdate n.pointerArray s (some (insertPath
        (if rest.isEmpty then nodeSetEnd ((n.pointerArray s).getD nodeCreate) true
          else (n.pointerArray s).getD nodeCreate) rest))) n.isEndNode := rfl

theorem endAt_insertPath (n : Node) {p : List (Fin 26)} (hp : p ≠ []) :
    endAt (some (insertPath n p)) p = true := by
  induction p generalizing n with
  | nil => exact absurd rfl hp
  | cons s rest ih =>
    rw [insertPath_cons, endAt_cons, pointerArray_mk, arrayUpdate_same]
    cases rest with
    | nil => simp [insertPath]
    | cons s2 rest2 => exact ih _ (by simp)

theorem isEndNode_insertPath (n : Node) (p : List (Fin 26)) :
    (insertPath n p).isEndNode = n.isEndNode := by
  cases p <;> rfl

theorem insertPath_idem (n : Node) (p : List (Fin 26)) :
    insertPath (insertPath n p) p = insertPath n p := by
  induction p generalizing n with
  | nil => rfl
  | cons s rest ih =>
    rw [insertPath_cons n, insertPath_cons, pointerArray_mk, arrayUpdate_same, isEndNode_mk,
      arrayUpdate_idem, Option.getD_some]
    cases rest with
    | nil => rfl
    | cons s2 rest2 =>
      simp only [List.isEmpty_cons, Bool.false_eq_true, if_false]
      rw [ih]

theorem endAt_nodeCreate (q : List (Fin 26)) : endAt (some nodeCreate) q = false := by
  cases q with
  | nil => rfl
  | cons s rest => simp [nodeCreate]

theorem endAt_getD_nodeCreate (o : Option Node) (q : List (Fin 26)) :
    endAt (some (o.getD nodeCreate)) q = endAt o q := by
  cases o with
  | none => rw [Option.getD_none, endAt_nodeCreate, endAt_none]
  | some c => rfl

theorem endAt_insertPath_other (n : Node) {p q : List (Fin 26)} (h : q ≠ p) :
    endAt (some (insertPath n p)) q = endAt (some n) q := by
  induction p generalizing n q with
  | nil => rfl
  | cons s rest ih =>
    rw [insertPath_cons]
    cases q with
    | nil => simp
    | cons s1 q1 =>
      rw [endAt_cons, endAt_cons, pointerArray_mk]
      by_cases hs : s1 = s
      · subst hs
        have hq : q1 ≠ rest := fun hq => h (by rw [hq])
        rw [arrayUpdate_same, ih _ hq]
        cases rest with
        | nil =>
          simp only [List.isEmpty_nil, if_true]
          cases q1 with
          | nil => exact absurd rfl hq
          | cons s2 q2 =>
            rw [endAt_cons, pointerArray_nodeSetEnd, ← endAt_cons, endAt_getD_nodeCreate]
        | cons s2 rest2 =>
          simp only [List.isEmpty_cons, Bool.false_eq_true, if_false]
          exact endAt_getD_nodeCreate _ _
      · rw [arrayUpdate_other _ _ hs]

theorem alive_of_endAt {n : Node} {q : List (Fin 26)} (h : endAt (some n) q = true) :
    Alive n := by
  cases q with
  | nil => exact Or.inr (by simpa using h)
  | cons s rest =>
    rw [endAt_cons] at h
    cases hc : n.pointerArray s with
    | none => rw [hc] at h; simp at h
    | some c => exact Or.inl ((nodeIsEmpty_eq_false n).2 ⟨s, c, hc⟩)

/-! ## Removal along a path -/

theorem removePath_cons (n : Node) (s : Fin 26) (rest : List (Fin 26)) :
    removePath (some n) (s :: rest) =
      if nodeIsEmpty (Node.mk (arrayUpdate n.pointerArray s
          (removePath (n.pointerArray s) rest)) n.isEndNode) && !n.isEndNode
      then none
      else some (Node.mk (arrayUpdate n.pointerArray s
          (removePath (n.pointerArray s) rest)) n.isEndNode) := rfl

theorem removePath_nil (n : Node) :
    removePath (some n) [] =
      if nodeIsEmpty n then none else some (nodeSetEnd n false) := rfl

@[simp] theorem removePath_none (p : List (Fin 26)) : removePath none p = none := by
  cases p <;> rfl

theorem endAt_removePath_self (o : Option Node) (p : List (Fin 26)) :
    endAt (removePath o p) p = false := by
  induction p generalizing o with
  | nil =>
    cases o with
    | none => simp
    | some n =>
      rw [removePath_nil]
      split <;> simp
  | cons s rest ih =>
    cases o with
    | none => simp
    | some n =>
      rw [removePath_cons]
      split
      · simp
      · rw [endAt_cons, pointerArray_mk, arrayUpdate_same]
        exact ih _

theorem endAt_removePath_other (o : Option Node) {p q : List (Fin 26)} (h : q ≠ p) :
    endAt (removePath o p) q = endAt o q := by
  induction p generalizing o q with
  | nil =>
    cases o with
    | none => simp
    | some n =>
      cases q with
      | nil => exact absurd rfl h
      | cons s q1 =>
        rw [removePath_nil]
        split
        · rename_i he
          rw [endAt_cons, (nodeIsEmpty_eq_true n).1 he s]
          simp
        · simp
  | cons s rest ih =>
    cases o with
    | none => simp
    | some n =>
      rw [removePath_cons]
      cases q with
      | nil =>
        split
        · rename_i hc
          simp only [Bool.and_eq_true, Bool.not_eq_true'] at hc
          simp [hc.2]
        · simp
      | cons s1 q1 =>
        by_cases hs : s1 = s
        · subst hs
          have hq : q1 ≠ rest := fun hq => h (by rw [hq])
          split
          · rename_i hc
            simp only [Bool.and_eq_true, Bool.not_eq_true'] at hc
            have h0 := (nodeIsEmpty_eq_true _).1 hc.1 s1
            rw [pointerArray_mk, arrayUpdate_same] at h0
            rw [endAt_none, endAt_cons, ← ih (n.pointerArray s1) hq, h0, endAt_none]
          · rw [endAt_cons, pointerArray_mk, arrayUpdate_same, endAt_cons]
            exact ih _ hq
        · split
          · rename_i hc
            simp only [Bool.and_eq_true, Bool.not_eq_true'] at hc
            have h0 := (nodeIsEmpty_eq_true _).1 hc.1 s1
            rw [pointerArray_mk, arrayUpdate_other _ _ hs] at h0
            rw [endAt_none, endAt_cons, h0, endAt_none]
          · rw [endAt_cons, pointerArray_mk, arrayUpdate_other _ _ hs, endAt_cons]

theorem isEndNode_removePath {n n1 : Node} {p : List (Fin 26)}
    (h : removePath (some n) p = some n1) (he : n.isEndNode = false) :
    n1.isEndNode = false := by
  cases p with
  | nil =>
    rw [removePath_nil] at h
    split at h
    · cases h
    · cases h; rfl
  | cons s rest =>
    rw [removePath_cons] at h
    split at h
    · cases h
    · cases h; exact he

theorem removePath_insertPath_fresh {n : Node} (hn : nodeIsEmpty n = true)
    (he : n.isEndNode = false) {p : List (Fin 26)} (hp : p ≠ []) :
    removePath (some (insertPath n p)) p = none := by
  induction p generalizing n with
  | nil => exact absurd rfl hp
  | cons s rest ih =>
    have hall := (nodeIsEmpty_eq_true n).1 hn
    have hchild : removePath (some (insertPath
        (if rest.isEmpty then nodeSetEnd ((n.pointerArray s).getD nodeCreate) true
          else (n.pointerArray s).getD nodeCreate) rest)) rest = none := by
      rw [hall s]
      cases rest with
      | nil =>
        simp only [List.isEmpty_nil, if_true, insertPath, Option.getD_none]
        rw [removePath_nil, nodeIsEmpty_nodeSetEnd, nodeIsEmpty_nodeCreate]
        rfl
      | cons s2 rest2 =>
        simp only [List.isEmpty_cons, Bool.false_eq_true, if_false, Option.getD_none]
        exact ih nodeIsEmpty_nodeCreate rfl (by simp)
    rw [insertPath_cons, removePath_cons, pointerArray_mk, arrayUpdate_same, hchild,
      arrayUpdate_idem, isEndNode_mk, he]
    have hempty : nodeIsEmpty (Node.mk (arrayUpdate n.pointerArray s none) false) = true := by
      rw [nodeIsEmpty_eq_true]
      intro j
      rw [pointerArray_mk]
      by_cases hj : j = s
      · rw [hj, arrayUpdate_same]
      · rw [arrayUpdate_other _ _ hj, hall j]
    rw [hempty]
    rfl

theorem walkPath_removePath_off_path (o : Option Node) {p q : List (Fin 26)}
    (h : ¬ q <+: p) : walkPath (removePath o p) q = walkPath o q := by
  induction p generalizing o q with
  | nil =>
    cases o with
    | none => simp
    | some n =>
      cases q with
      | nil => exact absurd (List.prefix_refl _) h
      | cons s q1 =>
        rw [removePath_nil]
        split
        · rename_i he
          rw [walkPath_none, walkPath_cons, (nodeIsEmpty_eq_true n).1 he s, walkPath_none]
        · rfl
  | cons s rest ih =>
    cases o with
    | none => simp
    | some n =>
      cases q with
      | nil => exact absurd (List.nil_prefix) h
      | cons s1 q1 =>
        rw [removePath_cons]
        by_cases hs : s1 = s
        · subst hs
          have hq : ¬ q1 <+: rest := fun hq => h ((List.prefix_cons_inj s1).2 hq)
          split
          · rename_i hc
            simp only [Bool.and_eq_true, Bool.not_eq_true'] at hc
            have h0 := (nodeIsEmpty_eq_true _).1 hc.1 s1
            rw [pointerArray_mk, arrayUpdate_same] at h0
            rw [walkPath_none, walkPath_cons, ← ih (n.pointerArray s1) hq, h0, walkPath_none]
          · rw [walkPath_cons, pointerArray_mk, arrayUpdate_same, walkPath_cons]
            exact ih _ hq
        · split
          · rename_i hc
            simp only [Bool.and_eq_true, Bool.not_eq_true'] at hc
            have h0 := (nodeIsEmpty_eq_true _).1 hc.1 s1
            rw [pointerArray_mk, arrayUpdate_other _ _ hs] at h0
            rw [walkPath_none, walkPath_cons, h0, walkPath_none]
          · rw [walkPath_cons, pointerArray_mk, arrayUpdate_other _ _ hs, walkPath_cons]

/-! ## Dead nodes -/

theorem noDeadBelow_iff (n : Node) :
    NoDeadBelow n ↔ ∀ s c, n.pointerArray s = some c → Alive c ∧ NoDeadBelow c := by
  constructor
  · intro h s c hc
    constructor
    · exact h [s] c (by simp) (by simp [hc])
    · intro p x hp hx
      exact h (s :: p) x (by simp) (by simp [hc, hx])
  · intro h p x hp hx
    cases p with
    | nil => exact absurd rfl hp
    | cons s rest =>
      rw [walkPath_cons] at hx
      cases hc : n.pointerArray s with
      | none => rw [hc] at hx; simp at hx
      | some c =>
        rw [hc] at hx
        obtain ⟨ha, hd⟩ := h s c hc
        cases rest with
        | nil =>
          simp only [walkPath_nil, Option.some.injEq] at hx
          rw [← hx]; exact ha
        | cons s2 rest2 => exact hd (s2 :: rest2) x (by simp) hx

theorem noDeadBelow_congr {n m : Node} (h : n.pointerArray = m.pointerArray) :
    NoDeadBelow n ↔ NoDeadBelow m := by
  rw [noDeadBelow_iff, noDeadBelow_iff, h]

theorem noDeadBelow_nodeSetEnd (n : Node) (b : Bool) :
    NoDeadBelow (nodeSetEnd n b) ↔ NoDeadBelow n :=
  noDeadBelow_congr (pointerArray_nodeSetEnd n b)

theorem noDeadBelow_nodeCreate : NoDeadBelow nodeCreate := by
  rw [noDeadBelow_iff]
  intro s c hc
  cases hc

theorem noDeadBelow_walk {n x : Node} (h : NoDeadBelow n) {p : List (Fin 26)}
    (hx : walkPath (some n) p = some x) : NoDeadBelow x := by
  intro q y hq hy
  refine h (p ++ q) y (by simp [hq]) ?_
  rw [walkPath_append, hx, hy]

theorem alive_insertPath (n : Node) {p : List (Fin 26)} (hp : p ≠ []) :
    nodeIsEmpty (insertPath n p) = false := by
  cases p with
  | nil => exact absurd rfl hp
  | cons s rest =>
    rw [nodeIsEmpty_eq_false, insertPath_cons]
    exact ⟨s, _, by rw [pointerArray_mk, arrayUpdate_same]⟩

theorem noDeadBelow_insertPath (n : Node) (p : List (Fin 26)) (h : NoDeadBelow n) :
    NoDeadBelow (insertPath n p) := by
  induction p generalizing n with
  | nil => exact h
  | cons s rest ih =>
    rw [insertPath_cons, noDeadBelow_iff]
    intro s1 c1 hc1
    rw [pointerArray_mk] at hc1
    by_cases hs : s1 = s
    · subst hs
      rw [arrayUpdate_same, Option.some.injEq] at hc1
      have hchild : NoDeadBelow ((n.pointerArray s1).getD nodeCreate) := by
        cases hch : n.pointerArray s1 with
        | none => exact noDeadBelow_nodeCreate
        | some c => exact ((noDeadBelow_iff n).1 h s1 c hch).2
      subst hc1
      cases rest with
      | nil =>
        refine ⟨Or.inr ?_, ?_⟩
        · simp [insertPath]
        · simp only [insertPath, List.isEmpty_nil, if_true]
          exact (noDeadBelow_nodeSetEnd _ _).2 hchild
      | cons s2 rest2 =>
        refine ⟨Or.inl (alive_insertPath _ (by simp)), ih _ ?_⟩
        simpa using hchild
    · rw [arrayUpdate_other _ _ hs] at hc1
      exact (noDeadBelow_iff n).1 h s1 c1 hc1

theorem alive_removePath {o : Option Node} {p : List (Fin 26)} {n1 : Node}
    (h : removePath o p = some n1) : Alive n1 := by
  cases o with
  | none => simp at h
  | some n =>
    cases p with
    | nil =>
      rw [removePath_nil] at h
      split at h
      · cases h
      · rename_i he
        simp only [Option.some.injEq] at h
        subst h
        exact Or.inl (by simpa using he)
    | cons s rest =>
      rw [removePath_cons] at h
      split at h
      · cases h
      · rename_i he
        simp only [Option.some.injEq] at h
        subst h
        simp only [Bool.and_eq_true, Bool.not_eq_true', not_and, Bool.not_eq_false,
          isEndNode_mk] at he
        unfold Alive
        cases hem : nodeIsEmpty (Node.mk (arrayUpdate n.pointerArray s
            (removePath (n.pointerArray s) rest)) n.isEndNode) with
        | false => exact Or.inl rfl
        | true => exact Or.inr (he hem)

theorem noDeadBelow_removePath {n n1 : Node} (p : List (Fin 26)) (hd : NoDeadBelow n)
    (h : removePath (some n) p = some n1) : NoDeadBelow n1 := by
  induction p generalizing n n1 with
  | nil =>
    rw [removePath_nil] at h
    split at h
    · cases h
    · simp only [Option.some.injEq] at h
      subst h
      exact (noDeadBelow_nodeSetEnd _ _).2 hd
  | cons s rest ih =>
    rw [removePath_cons] at h
    split at h
    · cases h
    · simp only [Option.some.injEq] at h
      subst h
      rw [noDeadBelow_iff]
      intro s1 c1 hc1
      rw [pointerArray_mk] at hc1
      by_cases hs : s1 = s
      · subst hs
        rw [arrayUpdate_same] at hc1
        refine ⟨alive_removePath hc1, ?_⟩
        cases hch : n.pointerArray s1 with
        | none => rw [hch] at hc1; simp at hc1
        | some c =>
          rw [hch] at hc1
          exact ih ((noDeadBelow_iff n).1 hd s1 c hch).2 hc1
      · rw [arrayUpdate_other _ _ hs] at hc1
        exact (noDeadBelow_iff n).1 hd s1 c1 hc1

theorem removePath_not_stored {n : Node} (p : List (Fin 26)) (hd : NoDeadBelow n)
    (ha : Alive n) (he : endAt (some n) p = false) : removePath (some n) p = some n := by
  induction p generalizing n with
  | nil =>
    rw [endAt_nil] at he
    have hne : nodeIsEmpty n = false := by
      cases ha with
      | inl h => exact h
      | inr h => rw [he] at h; cases h
    have hself : nodeSetEnd n false = n := by rw [← he, nodeSetEnd_self]
    rw [removePath_nil, hne, hself]
    simp
  | cons s rest ih =>
    rw [endAt_cons] at he
    have hchild : removePath (n.pointerArray s) rest = n.pointerArray s := by
      cases hch : n.pointerArray s with
      | none => simp
      | some c =>
        rw [hch] at he
        obtain ⟨hac, hdc⟩ := (noDeadBelow_iff n).1 hd s c hch
        exact ih hdc hac he
    rw [removePath_cons, hchild, arrayUpdate_eq_self, Node.eta]
    have : (nodeIsEmpty n && !n.isEndNode) = false := by
      cases ha with
      | inl h => simp [h]
      | inr h => simp [h]
    simp [this]

theorem exists_endAt : ∀ n : Node, Alive n → NoDeadBelow n → ∃ q, endAt (some n) q = true := by
  intro n
  induction n using Node.induct with
  | h f e ih =>
    intro ha hd
    cases e with
    | true => exact ⟨[], by simp⟩
    | false =>
      have hne : nodeIsEmpty (Node.mk f false) = false := by
        cases ha with
        | inl h => exact h
        | inr h => simp at h
      obtain ⟨s, c, hc⟩ := (nodeIsEmpty_eq_false _).1 hne
      rw [pointerArray_mk] at hc
      obtain ⟨hac, hdc⟩ := (noDeadBelow_iff _).1 hd s c (by rw [pointerArray_mk]; exact hc)
      obtain ⟨q, hq⟩ := ih s c hc hac hdc
      exact ⟨s :: q, by rw [endAt_cons, pointerArray_mk, hc]; exact hq⟩

theorem removePath_insertPath_not_stored {n : Node} (p : List (Fin 26))
    (hd : NoDeadBelow n) (ha : Alive n) (he : endAt (some n) p = false) :
    removePath (some (insertPath n p)) p = some n := by
  induction p generalizing n with
  | nil => exact removePath_not_stored [] hd ha he
  | cons s rest ih =>
    rw [endAt_cons] at he
    have hchild : removePath (some (insertPath
        (if rest.isEmpty then nodeSetEnd ((n.pointerArray s).getD nodeCreate) true
          else (n.pointerArray s).getD nodeCreate) rest)) rest = n.pointerArray s := by
      cases hch : n.pointerArray s with
      | none =>
        rw [Option.getD_none]
        cases rest with
        | nil =>
          simp only [List.isEmpty_nil, if_true, insertPath]
          rw [removePath_nil, nodeIsEmpty_nodeSetEnd, nodeIsEmpty_nodeCreate]
          rfl
        | cons s2 rest2 =>
          simp only [List.isEmpty_cons, Bool.false_eq_true, if_false]
          exact removePath_insertPath_fresh nodeIsEmpty_nodeCreate rfl (by simp)
      | some c =>
        rw [hch] at he
        obtain ⟨hac, hdc⟩ := (noDeadBelow_iff n).1 hd s c hch
        rw [Option.getD_some]
        cases rest with
        | nil =>
          rw [endAt_nil] at he
          have hne : nodeIsEmpty c = false := by
            cases hac with
            | inl h => exact h
            | inr h => rw [he] at h; cases h
          have hself : nodeSetEnd c false = c := by rw [← he, nodeSetEnd_self]
          simp only [List.isEmpty_nil, if_true, insertPath]
          rw [removePath_nil, nodeIsEmpty_nodeSetEnd, hne]
          simp only [Bool.false_eq_true, if_false]
          exact congrArg some hself
        | cons s2 rest2 =>
          simp only [List.isEmpty_cons, Bool.false_eq_true, if_false]
          exact ih hdc hac he
    rw [insertPath_cons, removePath_cons, pointerArray_mk, arrayUpdate_same, hchild,
      arrayUpdate_idem, isEndNode_mk, arrayUpdate_eq_self, Node.eta]
    have : (nodeIsEmpty n && !n.isEndNode) = false := by
      cases ha with
      | inl h => simp [h]
      | inr h => simp [h]
    simp [this]

/-! ## Which nodes a removal deletes -/

theorem deadPathNode_succ {n c : Node} {s : Fin 26} (rest : List (Fin 26)) (d : Nat)
    (hc : n.pointerArray s = some c) :
    DeadPathNode (some n) (s :: rest) (d + 1) ↔ DeadPathNode (some c) rest d := by
  simp only [DeadPathNode, List.take_succ_cons, walkPath_cons, hc, List.getElem?_cons_succ,
    List.length_cons, Nat.add_lt_add_iff_right]

theorem deadPathNode_zero (n : Node) (s : Fin 26) (rest : List (Fin 26)) :
    DeadPathNode (some n) (s :: rest) 0 ↔
      (∀ j, j ≠ s → n.pointerArray j = none) ∧ n.isEndNode = false := by
  simp only [DeadPathNode, List.take_zero, walkPath_nil, Option.some.injEq,
    List.getElem?_cons_zero, List.length_cons, Nat.zero_lt_succ, forall_const, ne_eq,
    exists_eq_left']
  constructor
  · rintro ⟨h1, h2⟩
    exact ⟨fun j hj => h1 j (fun h => hj h.symm), h2⟩
  · rintro ⟨h1, h2⟩
    exact ⟨fun j hj => h1 j (fun h => hj h.symm), h2⟩

theorem removePath_eq_none_iff {n x : Node} {p : List (Fin 26)}
    (hx : walkPath (some n) p = some x) :
    removePath (some n) p = none ↔ ∀ d, d ≤ p.length → DeadPathNode (some n) p d := by
  induction p generalizing n with
  | nil =>
    rw [removePath_nil]
    constructor
    · intro h d hd
      have hd0 : d = 0 := by simpa using hd
      subst hd0
      have he : nodeIsEmpty n = true := by
        by_contra hne
        simp [hne] at h
      exact ⟨n, rfl, fun s _ => (nodeIsEmpty_eq_true n).1 he s, fun h0 => absurd h0 (by simp)⟩
    · intro h
      obtain ⟨y, hy, hall, _⟩ := h 0 (Nat.le_refl _)
      simp only [List.take_nil, walkPath_nil, Option.some.injEq] at hy
      subst hy
      have he : nodeIsEmpty n = true :=
        (nodeIsEmpty_eq_true n).2 (fun s => hall s (by simp))
      simp [he]
  | cons s rest ih =>
    rw [walkPath_cons] at hx
    cases hc : n.pointerArray s with
    | none => rw [hc] at hx; simp at hx
    | some c =>
      rw [hc] at hx
      have hih := ih hx
      rw [removePath_cons, hc]
      have hempty : nodeIsEmpty (Node.mk (arrayUpdate n.pointerArray s
          (removePath (some c) rest)) n.isEndNode) = true ↔
          (∀ j, j ≠ s → n.pointerArray j = none) ∧ removePath (some c) rest = none := by
        rw [nodeIsEmpty_eq_true]
        constructor
        · intro h
          refine ⟨fun j hj => ?_, ?_⟩
          · have := h j
            rwa [pointerArray_mk, arrayUpdate_other _ _ hj] at this
          · have := h s
            rwa [pointerArray_mk, arrayUpdate_same] at this
        · rintro ⟨h1, h2⟩ j
          rw [pointerArray_mk]
          by_cases hj : j = s
          · rw [hj, arrayUpdate_same, h2]
          · rw [arrayUpdate_other _ _ hj, h1 j hj]
      constructor
      · intro h
        have hcond : nodeIsEmpty (Node.mk (arrayUpdate n.pointerArray s
            (removePath (some c) rest)) n.isEndNode) = true ∧ n.isEndNode = false := by
          by_contra hne
          rw [if_neg (by simpa using hne)] at h
          cases h
        obtain ⟨hoff, hrem⟩ := hempty.1 hcond.1
        intro d hd
        cases d with
        | zero => exact (deadPathNode_zero n s rest).2 ⟨hoff, hcond.2⟩
        | succ d1 =>
          exact (deadPathNode_succ rest d1 hc).2
            (hih.1 hrem d1 (by simpa using hd))
      · intro h
        obtain ⟨hoff, hend⟩ := (deadPathNode_zero n s rest).1 (h 0 (Nat.zero_le _))
        have hrem : removePath (some c) rest = none :=
          hih.2 (fun d hd => (deadPathNode_succ rest d hc).1 (h (d + 1) (by simpa using hd)))
        have he1 := hempty.2 ⟨hoff, hrem⟩
        rw [if_pos (by rw [he1, hend]; rfl)]

theorem walkPath_removePath_take_eq_none_iff {n x : Node} {p : List (Fin 26)}
    (hx : walkPath (some n) p = some x) (d : Nat) (hd : d ≤ p.length) :
    walkPath (removePath (some n) p) (p.take d) = none ↔
      ∀ d1, d ≤ d1 → d1 ≤ p.length → DeadPathNode (some n) p d1 := by
  induction p generalizing n d with
  | nil =>
    have hd0 : d = 0 := by simpa using hd
    subst hd0
    rw [List.take_nil, walkPath_nil, removePath_eq_none_iff hx]
    exact ⟨fun h d1 _ h1 => h d1 h1, fun h d1 h1 => h d1 (Nat.zero_le _) h1⟩
  | cons s rest ih =>
    cases d with
    | zero =>
      rw [List.take_zero, walkPath_nil, removePath_eq_none_iff hx]
      exact ⟨fun h d1 _ h1 => h d1 h1, fun h d1 h1 => h d1 (Nat.zero_le _) h1⟩
    | succ d0 =>
      have hd0 : d0 ≤ rest.length := by simpa using hd
      have hx0 := hx
      rw [walkPath_cons] at hx
      cases hc : n.pointerArray s with
      | none => rw [hc] at hx; simp at hx
      | some c =>
        rw [hc] at hx
        have hshift : (∀ d1, d0 + 1 ≤ d1 → d1 ≤ (s :: rest).length →
              DeadPathNode (some n) (s :: rest) d1) ↔
            ∀ d1, d0 ≤ d1 → d1 ≤ rest.length → DeadPathNode (some c) rest d1 := by
          constructor
          · intro h d1 h1 h2
            exact (deadPathNode_succ rest d1 hc).1
              (h (d1 + 1) (Nat.succ_le_succ h1) (by simpa using h2))
          · intro h d1 h1 h2
            cases d1 with
            | zero => exact absurd h1 (by simp)
            | succ d2 =>
              exact (deadPathNode_succ rest d2 hc).2
                (h d2 (Nat.le_of_succ_le_succ h1) (by simpa using h2))
        rw [hshift, ← ih hx d0 hd0, List.take_succ_cons]
        cases hr : removePath (some n) (s :: rest) with
        | none =>
          have hall := (removePath_eq_none_iff hx0).1 hr
          have hrem : removePath (some c) rest = none :=
            (removePath_eq_none_iff hx).2
              (fun d hd1 => (deadPathNode_succ rest d hc).1 (hall (d + 1) (by simpa using hd1)))
          simp [hrem]
        | some n1 =>
          rw [removePath_cons, hc] at hr
          split at hr
          · cases hr
          · cases hr
            rw [walkPath_cons, pointerArray_mk, arrayUpdate_same]

theorem walkPath_removePath_take_isEndNode {n x x1 : Node} {p : List (Fin 26)}
    (hx : walkPath (some n) p = some x) (d : Nat) (hd : d ≤ p.length)
    (h1 : walkPath (removePath (some n) p) (p.take d) = some x1) :
    ∃ y, walkPath (some n) (p.take d) = some y ∧
      x1.isEndNode = (if d = p.length then false else y.isEndNode) := by
  induction p generalizing n d with
  | nil =>
    have hd0 : d = 0 := by simpa using hd
    subst hd0
    rw [List.take_nil, walkPath_nil, removePath_nil] at h1
    split at h1
    · cases h1
    · cases h1
      exact ⟨n, rfl, by simp⟩
  | cons s rest ih =>
    rw [walkPath_cons] at hx
    cases hc : n.pointerArray s with
    | none => rw [hc] at hx; simp at hx
    | some c =>
      rw [hc] at hx
      rw [removePath_cons, hc] at h1
      split at h1
      · rw [walkPath_none] at h1; cases h1
      · cases d with
        | zero =>
          rw [List.take_zero, walkPath_nil] at h1
          cases h1
          exact ⟨n, rfl, by simp⟩
        | succ d0 =>
          have hd0 : d0 ≤ rest.length := by simpa using hd
          rw [List.take_succ_cons, walkPath_cons, pointerArray_mk, arrayUpdate_same] at h1
          obtain ⟨y, hy, he⟩ := ih hx d0 hd0 h1
          refine ⟨y, by rw [List.take_succ_cons, walkPath_cons, hc]; exact hy, ?_⟩
          rw [he]
          simp

/-! ## Insertion along a path when allocation fails -/

theorem insertPathAlloc_cons_none_zero {n : Node} {s : Fin 26} (rest : List (Fin 26))
    (hc : n.pointerArray s = none) : insertPathAlloc 0 n (s :: rest) = n := by
  simp only [insertPathAlloc, hc]

theorem insertPathAlloc_cons_none_succ {n : Node} {s : Fin 26} (rest : List (Fin 26))
    (k : Nat) (hc : n.pointerArray s = none) :
    insertPathAlloc (k + 1) n (s :: rest) =
      .mk (arrayUpdate n.pointerArray s (some (insertPathAlloc k
        (if rest.isEmpty then nodeSetEnd nodeCreate true else nodeCreate) rest)))
        n.isEndNode := by
  simp only [insertPathAlloc, hc]

theorem insertPathAlloc_cons_some {n c : Node} {s : Fin 26} (rest : List (Fin 26))
    (k : Nat) (hc : n.pointerArray s = some c) :
    insertPathAlloc k n (s :: rest) =
      .mk (arrayUpdate n.pointerArray s (some (insertPathAlloc k
        (if rest.isEmpty then nodeSetEnd c true else c) rest))) n.isEndNode := by
  simp only [insertPathAlloc, hc]

theorem insertPathAlloc_enough (n : Node) (p : List (Fin 26)) (k : Nat)
    (hk : p.length ≤ k) : insertPathAlloc k n p = insertPath n p := by
  induction p generalizing n k with
  | nil => cases k <;> rfl
  | cons s rest ih =>
    rw [insertPath_cons]
    cases hc : n.pointerArray s with
    | none =>
      cases k with
      | zero => simp at hk
      | succ k1 =>
        rw [insertPathAlloc_cons_none_succ _ _ hc, ih _ k1 (by simpa using hk)]
        rfl
    | some c =>
      rw [insertPathAlloc_cons_some _ _ hc, ih _ k (by simp at hk; omega)]
      rfl

theorem walkPath_insertPath_isSome (n : Node) {p q : List (Fin 26)} {x : Node}
    (h : walkPath (some (insertPath n p)) q = some x) :
    (walkPath (some n) q).isSome = true ∨ q <+: p := by
  induction p generalizing n q x with
  | nil => left; rw [show insertPath n [] = n from rfl] at h; rw [h]; rfl
  | cons s rest ih =>
    cases q with
    | nil => left; rfl
    | cons s1 q1 =>
      rw [insertPath_cons, walkPath_cons, pointerArray_mk] at h
      by_cases hs : s1 = s
      · subst hs
        rw [arrayUpdate_same] at h
        rcases ih _ h with h1 | h1
        · cases q1 with
          | nil => right; exact (List.prefix_cons_inj s1).2 List.nil_prefix
          | cons s2 q2 =>
            left
            cases hc : n.pointerArray s1 with
            | none =>
              rw [hc] at h1
              cases rest <;> simp [nodeCreate] at h1
            | some c =>
              rw [hc] at h1
              rw [walkPath_cons, hc]
              cases rest with
              | nil => simpa using h1
              | cons _ _ => simpa using h1
        · right; exact (List.prefix_cons_inj s1).2 h1
      · left
        rw [arrayUpdate_other _ _ hs] at h
        rw [walkPath_cons, h]
        rfl

theorem walkPath_removePath_isSome (o : Option Node) {p q : List (Fin 26)} {x : Node}
    (h : walkPath (removePath o p) q = some x) : (walkPath o q).isSome = true := by
  induction p generalizing o q x with
  | nil =>
    cases o with
    | none => simp at h
    | some n =>
      rw [removePath_nil] at h
      split at h
      · simp at h
      · cases q with
        | nil => rfl
        | cons s q1 =>
          rw [walkPath_cons, pointerArray_nodeSetEnd] at h
          rw [walkPath_cons, h]
          rfl
  | cons s rest ih =>
    cases o with
    | none => simp at h
    | some n =>
      rw [removePath_cons] at h
      split at h
      · simp at h
      · cases q with
        | nil => rfl
        | cons s1 q1 =>
          rw [walkPath_cons, pointerArray_mk] at h
          rw [walkPath_cons]
          by_cases hs : s1 = s
          · subst hs
            rw [arrayUpdate_same] at h
            exact ih _ h
          · rw [arrayUpdate_other _ _ hs] at h
            rw [h]
            rfl

theorem depthBounded_nodeCreate (h : Nat) : DepthBounded (some nodeCreate) h := by
  intro p x hx
  cases p with
  | nil => exact Nat.zero_le _
  | cons s rest => simp [nodeCreate] at hx

theorem depthBounded_none (h : Nat) : DepthBounded none h := by
  intro p x hx
  simp at hx

theorem depthBounded_insertPath {n : Node} {h : Nat} (p : List (Fin 26))
    (hb : DepthBounded (some n) h) (hp : p.length ≤ h) :
    DepthBounded (some (insertPath n p)) h := by
  intro q x hx
  rcases walkPath_insertPath_isSome n hx with h1 | h1
  · cases hq : walkPath (some n) q with
    | none => rw [hq] at h1; cases h1
    | some y => exact hb q y hq
  · exact Nat.le_trans h1.length_le hp

theorem depthBounded_removePath {o : Option Node} {h : Nat} (p : List (Fin 26))
    (hb : DepthBounded o h) : DepthBounded (removePath o p) h := by
  intro q x hx
  have h1 := walkPath_removePath_isSome o hx
  cases hq : walkPath o q with
  | none => rw [hq] at h1; cases h1
  | some y => exact hb q y hq

theorem walkFits_of_short {i : Nat} (o : Option Node) {p : List (Fin 26)}
    (h : i + p.length ≤ 32767) : WalkFits i o p := by
  intro j hj _
  omega

theorem walkFits_of_depthBounded {i h : Nat} {o : Option Node} (p : List (Fin 26))
    (hb : DepthBounded o h) (hi : i + h ≤ 32767) : WalkFits i o p := by
  intro j hj hsome
  cases hq : walkPath o (p.take j) with
  | none => rw [hq] at hsome; cases hsome
  | some y =>
    have := hb _ y hq
    rw [List.length_take_of_le hj] at this
    omega

theorem walkFits_child {i : Nat} {n x : Node} {s : Fin 26} {rest : List (Fin 26)}
    (h : WalkFits i (some n) (s :: rest)) (hc : n.pointerArray s = some x) :
    i + 1 ≤ 32767 ∧ WalkFits (i + 1) (some x) rest := by
  constructor
  · exact h 1 (by simp) (by simp [hc])
  · intro j hj hsome
    have := h (j + 1) (by simpa using hj) (by rw [List.take_succ_cons, walkPath_cons, hc]; exact hsome)
    omega

theorem walkFits_start {i : Nat} {n : Node} {p : List (Fin 26)}
    (h : WalkFits i (some n) p) : i ≤ 32767 := by
  have := h 0 (Nat.zero_le _) (by simp)
  omega
/-! ## The loops of the code -/

theorem getNextNode_some {c : Char} (h : IsLowercase c) (n : Node) :
    getNextNode (some n) c = .ok (n.pointerArray (letterSlot c)) := by
  simp [getNextNode, arrayRead, slotOf_letterArrayIndex h]

theorem slotOf_isLowercase {c : Char} {s : Fin 26} (h : slotOf (letterArrayIndex c) = some s) :
    IsLowercase c := by
  unfold slotOf at h
  split at h
  · rename_i hb
    simp only [letterArrayIndex, A_LOWERCASE_CHAR] at hb
    have h97 : ('a' : Char).toNat = 97 := by decide
    rw [h97] at hb
    have hsize : TRIE_ALPHABET_SIZE = 26 := rfl
    unfold IsLowercase
    omega
  · cases h

theorem natCast_not_neg (i : Nat) : ¬ ((i : Int) < 0) := by
  omega

theorem getLastNodeLoop_neg {i : Int} (h : i < 0) (o : Option Node) (rest : List Char) :
    getLastNodeLoop i o rest = .error .outOfBounds := by
  unfold getLastNodeLoop
  simp [h]

theorem trieInsertLoop_neg {i : Int} (h : i < 0) (o : Option Node) (rest : List Char) :
    trieInsertLoop i o rest = .error .outOfBounds := by
  unfold trieInsertLoop
  simp [h]

theorem recursiveRemove_none (rest : List Char) (d : Int) :
    recursiveRemove none rest d = .ok none := by
  unfold recursiveRemove
  rfl

theorem recursiveRemove_neg {d : Int} (h : d < 0) (n : Node) (rest : List Char) :
    recursiveRemove (some n) rest d = .error .outOfBounds := by
  unfold recursiveRemove
  simp [h]

theorem getLastNodeLoop_eq_fits {w : List Char} (hw : ∀ c ∈ w, IsLowercase c) (i : Nat)
    (o : Option Node) (hfit : WalkFits i o (wordPath w)) :
    getLastNodeLoop i o w = .ok (walkPath o (wordPath w)) := by
  induction w generalizing i o with
  | nil =>
    rw [getLastNodeLoop]
    simp [natCast_not_neg, wordPath]
  | cons c rest ih =>
    have hc := hw c (List.mem_cons_self _ _)
    have hr := fun d hd => hw d (List.mem_cons_of_mem _ hd)
    rw [getLastNodeLoop]
    simp only [natCast_not_neg, if_false]
    cases o with
    | none => simp [getNextNode, bind, Except.bind]
    | some n =>
      simp only [getNextNode_some hc, bind, Except.bind]
      cases hch : n.pointerArray (letterSlot c) with
      | none => simp [wordPath, hch]
      | some x =>
        obtain ⟨h1, h2⟩ := walkFits_child hfit hch
        simp only [toShort_succ i h1, ih hr (i + 1) (some x) h2]
        simp [wordPath, hch]

theorem recursiveRemove_eq_fits {w : List Char} (hw : ∀ c ∈ w, IsLowercase c) (i : Nat)
    (o : Option Node) (hfit : WalkFits i o (wordPath w)) :
    recursiveRemove o w i = .ok (removePath o (wordPath w)) := by
  induction w generalizing i o with
  | nil =>
    cases o with
    | none => simp [recursiveRemove_none]
    | some n =>
      rw [recursiveRemove]
      simp only [natCast_not_neg, if_false, wordPath, List.map_nil, removePath]
      cases he : n.isEndNode with
      | false =>
        have : nodeSetEnd n false = n := by rw [← he, nodeSetEnd_self]
        simp only [Bool.false_eq_true, if_false, this]
        split <;> rfl
      | true =>
        simp only [if_true]
        split <;> rfl
  | cons c rest ih =>
    have hc := hw c (List.mem_cons_self _ _)
    have hr := fun d hd => hw d (List.mem_cons_of_mem _ hd)
    cases o with
    | none => simp [recursiveRemove_none]
    | some n =>
      rw [recursiveRemove]
      simp only [natCast_not_neg, if_false, getNextNode_some hc, bind, Except.bind]
      have hrec : recursiveRemove (n.pointerArray (letterSlot c)) rest
          (toShort ((i : Int) + 1)) =
          .ok (removePath (n.pointerArray (letterSlot c)) (wordPath rest)) := by
        cases hch : n.pointerArray (letterSlot c) with
        | none => simp [recursiveRemove_none]
        | some x =>
          obtain ⟨h1, h2⟩ := walkFits_child hfit hch
          rw [toShort_succ i h1]
          exact ih hr (i + 1) (some x) h2
      simp only [hrec, nodeWrite, slotOf_letterArrayIndex hc]
      simp only [wordPath, List.map_cons, removePath]
      split <;> rfl

theorem trieInsertLoop_eq {w : List Char} (hw : ∀ c ∈ w, IsLowercase c) (i : Nat)
    (hlen : i + w.length ≤ 32767) (n : Node) :
    trieInsertLoop i (some n) w = .ok (some (insertPath n (wordPath w))) := by
  induction w generalizing i n with
  | nil =>
    rw [trieInsertLoop]
    simp [natCast_not_neg, wordPath, insertPath]
  | cons c rest ih =>
    have hc := hw c (List.mem_cons_self _ _)
    have hr := fun d hd => hw d (List.mem_cons_of_mem _ hd)
    have h1 : i + 1 ≤ 32767 := by simp at hlen; omega
    have h2 : i + 1 + rest.length ≤ 32767 := by simp at hlen; omega
    rw [trieInsertLoop]
    simp only [natCast_not_neg, if_false, getNextNode_some hc, bind, Except.bind, nodeWrite,
      arrayRead, slotOf_letterArrayIndex hc, toShort_succ i h1]
    cases hch : n.pointerArray (letterSlot c) with
    | none =>
      simp only [pointerArray_mk, arrayUpdate_same, ih hr (i + 1) h2, isEndNode_mk,
        arrayUpdate_idem]
      simp [wordPath, insertPath, hch]
    | some x =>
      simp only [hch, ih hr (i + 1) h2]
      simp [wordPath, insertPath, hch]

theorem trieInsertLoopAlloc_eq {w : List Char} (hw : ∀ c ∈ w, IsLowercase c) (k i : Nat)
    (hlen : i + w.length ≤ 32767) (n : Node) :
    trieInsertLoopAlloc k i (some n) w = .ok (some (insertPathAlloc k n (wordPath w))) := by
  induction w generalizing n k i with
  | nil =>
    rw [trieInsertLoopAlloc]
    simp [natCast_not_neg, wordPath, insertPathAlloc]
  | cons c rest ih =>
    have hc := hw c (List.mem_cons_self _ _)
    have hr := fun d hd => hw d (List.mem_cons_of_mem _ hd)
    have h1 : i + 1 ≤ 32767 := by simp at hlen; omega
    have h2 : i + 1 + rest.length ≤ 32767 := by simp at hlen; omega
    rw [trieInsertLoopAlloc]
    simp only [natCast_not_neg, if_false, getNextNode_some hc, bind, Except.bind,
      trieInsertLinkAlloc, nodeWrite, arrayRead, slotOf_letterArrayIndex hc, wordPath,
      List.map_cons, toShort_succ i h1]
    cases hch : n.pointerArray (letterSlot c) with
    | none =>
      cases k with
      | zero =>
        simp only [nodeCreateAlloc]
        rw [insertPathAlloc_cons_none_zero _ hch]
      | succ k1 =>
        simp only [nodeCreateAlloc, pointerArray_mk, arrayUpdate_same, ih hr k1 (i + 1) h2,
          isEndNode_mk, arrayUpdate_idem]
        rw [insertPathAlloc_cons_none_succ _ _ hch]
        cases rest <;> rfl
    | some x =>
      simp only [hch, ih hr k (i + 1) h2]
      rw [insertPathAlloc_cons_some _ _ hch]
      cases rest <;> rfl

theorem recursiveRemove_nil_of_nonneg {d : Int} (hd : ¬ d < 0) (n : Node) :
    recursiveRemove (some n) [] d = .ok (removePath (some n) []) := by
  rw [recursiveRemove]
  simp only [hd, if_false, removePath]
  cases he : n.isEndNode with
  | false =>
    have : nodeSetEnd n false = n := by rw [← he, nodeSetEnd_self]
    simp only [Bool.false_eq_true, if_false, this]
    split <;> rfl
  | true =>
    simp only [if_true]
    split <;> rfl

theorem recursiveRemove_ok {o : Option Node} {w : List Char} {d : Int} {r : Option Node}
    (h : recursiveRemove o w d = .ok r) : ∃ p, r = removePath o p := by
  induction w generalizing o d r with
  | nil =>
    cases o with
    | none =>
      rw [recursiveRemove_none] at h
      cases h
      exact ⟨[], by simp⟩
    | some n =>
      by_cases hd : d < 0
      · rw [recursiveRemove_neg hd] at h; cases h
      · rw [recursiveRemove_nil_of_nonneg hd] at h
        exact ⟨[], by cases h; rfl⟩
  | cons c rest ih =>
    cases o with
    | none =>
      rw [recursiveRemove_none] at h
      cases h
      exact ⟨[], by simp⟩
    | some n =>
      by_cases hd : d < 0
      · rw [recursiveRemove_neg hd] at h; cases h
      · rw [recursiveRemove] at h
        simp only [hd, if_false, getNextNode, arrayRead, nodeWrite, bind, Except.bind] at h
        cases hs : slotOf (letterArrayIndex c) with
        | none => rw [hs] at h; cases h
        | some s =>
          rw [hs] at h
          simp only at h
          cases hrec : recursiveRemove (n.pointerArray s) rest (toShort (d + 1)) with
          | error e => rw [hrec] at h; cases h
          | ok removed =>
            rw [hrec] at h
            simp only at h
            obtain ⟨p1, hp1⟩ := ih hrec
            refine ⟨s :: p1, ?_⟩
            rw [removePath_cons, ← hp1]
            split at h <;> rename_i hc
            · cases h
              rw [isEndNode_mk] at hc
              rw [if_pos hc]
            · cases h
              rw [isEndNode_mk] at hc
              rw [if_neg hc]

theorem getLastNodeLoop_some {o : Option Node} {w : List Char} {x : Node} (i : Nat)
    (hi : i ≤ 32767) (h : getLastNodeLoop i o w = .ok (some x)) :
    (∀ c ∈ w, IsLowercase c) ∧ i + w.length ≤ 32767 ∧
      walkPath o (wordPath w) = some x := by
  induction w generalizing o i with
  | nil =>
    rw [getLastNodeLoop] at h
    simp only [natCast_not_neg, if_false] at h
    cases h
    exact ⟨by simp, by simpa using hi, rfl⟩
  | cons c rest ih =>
    rw [getLastNodeLoop] at h
    simp only [natCast_not_neg, if_false] at h
    cases o with
    | none => simp [getNextNode, bind, Except.bind] at h
    | some n =>
      simp only [getNextNode, arrayRead, bind, Except.bind] at h
      cases hs : slotOf (letterArrayIndex c) with
      | none => rw [hs] at h; cases h
      | some s =>
        rw [hs] at h
        simp only at h
        have hc := slotOf_isLowercase hs
        have hsl : s = letterSlot c := by
          have := slotOf_letterArrayIndex hc
          rw [hs] at this
          exact Option.some.inj this
        cases hch : n.pointerArray s with
        | none => rw [hch] at h; cases h
        | some y =>
          rw [hch] at h
          simp only at h
          by_cases hlt : i + 1 ≤ 32767
          · rw [toShort_succ i hlt] at h
            obtain ⟨h1, h2, h3⟩ := ih (i + 1) hlt h
            refine ⟨?_, by simp; omega, ?_⟩
            · intro d hd
              rcases List.mem_cons.1 hd with rfl | hd
              · exact hc
              · exact h1 d hd
            · rw [wordPath, List.map_cons, walkPath_cons, ← hsl, hch]
              exact h3
          · rw [getLastNodeLoop_neg (toShort_wrap i (by omega))] at h
            cases h
/-! ## The interface -/

theorem length_wordPath (w : List Char) : (wordPath w).length = w.length := by
  simp [wordPath]

theorem isValid_some {w : List Char} :
    isValidLowercaseWord (some w) = .ok true ↔ IsShortLowercase w := by
  have h := isValidLowercaseLoop_ok_true 0 (by omega) w
  simp only [Nat.cast_zero, Nat.zero_add] at h
  exact h

theorem isValid_long {w : List Char} (hlow : ∀ c ∈ w, IsLowercase c)
    (hlen : 32767 < w.length) : isValidLowercaseWord (some w) = .error .outOfBounds := by
  have h := isValidLowercaseLoop_long 0 (by omega) w [] hlow (by omega)
  simp only [Nat.cast_zero, List.append_nil] at h
  exact h

theorem isValid_long_prefix {pre : List Char} (suf : List Char)
    (hlow : ∀ c ∈ pre, IsLowercase c) (hlen : 32767 < pre.length) :
    isValidLowercaseWord (some (pre ++ suf)) = .error .outOfBounds := by
  have h := isValidLowercaseLoop_long 0 (by omega) pre suf hlow (by omega)
  simp only [Nat.cast_zero] at h
  exact h

theorem isValid_invalid {w : List Char} (h : ∃ c ∈ w.take 32768, ¬ IsLowercase c) :
    isValidLowercaseWord (some w) = .ok false := by
  have h1 := isValidLowercaseLoop_invalid 0 (by omega) w h
  simp only [Nat.cast_zero] at h1
  exact h1

theorem isValid_returns (word : CString) (hlen : ∀ w, word = some w → w.length ≤ 32767) :
    ∃ b, isValidLowercaseWord word = .ok b := by
  cases word with
  | none => exact ⟨false, rfl⟩
  | some w =>
    have h1 := isValidLowercaseLoop_returns 0 (by omega) w (by have := hlen w rfl; omega)
    simp only [Nat.cast_zero] at h1
    exact h1

theorem isValid_none_or_short {word : CString} (h : isValidLowercaseWord word = .ok true) :
    ∃ w, word = some w ∧ IsShortLowercase w := by
  cases word with
  | none => cases h
  | some w => exact ⟨w, rfl, isValid_some.1 h⟩

theorem rootPresent_iff {obj : Option Trie} :
    rootPresent obj = true ↔ ∃ n, obj = some { root := some n } := by
  cases obj with
  | none => simp [rootPresent]
  | some t =>
    cases t with
    | mk r =>
      cases r with
      | none => simp [rootPresent]
      | some n => simp [rootPresent]

theorem trieSearch_eq_fits {w : List Char} (hw : ∀ c ∈ w, IsLowercase c) (t : Trie)
    (hfit : WalkFits 0 t.root (wordPath w)) :
    trieSearch (some t) (some w) = .ok (endAt t.root (wordPath w)) := by
  cases hr : t.root with
  | none => simp [trieSearch, hr]
  | some n =>
    rw [hr] at hfit
    have h := getLastNodeLoop_eq_fits hw 0 (some n) hfit
    simp only [Nat.cast_zero] at h
    simp only [trieSearch, hr, Option.isNone_some, Bool.false_eq_true, if_false,
      getLastNodeOfWord, h, bind, Except.bind, endAt]
    cases walkPath (some n) (wordPath w) with
    | none => rfl
    | some x => cases he : x.isEndNode <;> simp [he]

theorem trieSearch_eq {w : List Char} (hw : IsShortLowercase w) (t : Trie) :
    trieSearch (some t) (some w) = .ok (endAt t.root (wordPath w)) :=
  trieSearch_eq_fits hw.1 t (walkFits_of_short _ (by rw [length_wordPath]; have := hw.2; omega))

theorem trieSearch_none (word : CString) : trieSearch none word = .ok false := by
  cases word <;> rfl

theorem trieStartsWith_eq_fits {w : List Char} (hw : ∀ c ∈ w, IsLowercase c) (hne : w ≠ [])
    (t : Trie) (hfit : WalkFits 0 t.root (wordPath w)) :
    trieStartsWith (some t) (some w) = .ok (walkPath t.root (wordPath w)).isSome := by
  cases hr : t.root with
  | none => simp [trieStartsWith, hr]
  | some n =>
    rw [hr] at hfit
    have h := getLastNodeLoop_eq_fits hw 0 (some n) hfit
    simp only [Nat.cast_zero] at h
    cases w with
    | nil => exact absurd rfl hne
    | cons c rest =>
      simp only [trieStartsWith, hr, Option.isNone_some, Bool.false_eq_true, if_false,
        getLastNodeOfWord, h, bind, Except.bind]
      cases walkPath (some n) (wordPath (c :: rest)) <;> rfl

theorem trieStartsWith_eq {w : List Char} (hw : IsShortLowercase w) (hne : w ≠ [])
    (t : Trie) :
    trieStartsWith (some t) (some w) = .ok (walkPath t.root (wordPath w)).isSome :=
  trieStartsWith_eq_fits hw.1 hne t
    (walkFits_of_short _ (by rw [length_wordPath]; have := hw.2; omega))

theorem trieRemove_eq_fits {w : List Char} (hw : ∀ c ∈ w, IsLowercase c) (t : Trie)
    (hfit : WalkFits 0 t.root (wordPath w)) :
    trieRemove (some t) (some w) = .ok (some { root := removePath t.root (wordPath w) }) := by
  cases t with
  | mk r =>
    cases r with
    | none => simp [trieRemove, removePath]
    | some n =>
      have h := recursiveRemove_eq_fits hw 0 (some n) hfit
      simp only [Nat.cast_zero] at h
      simp [trieRemove, h, bind, Except.bind]

theorem trieRemove_eq {w : List Char} (hw : IsShortLowercase w) (t : Trie) :
    trieRemove (some t) (some w) = .ok (some { root := removePath t.root (wordPath w) }) :=
  trieRemove_eq_fits hw.1 t (walkFits_of_short _ (by rw [length_wordPath]; have := hw.2; omega))

theorem trieRemove_none (word : CString) : trieRemove none word = .ok none := by
  cases word <;> rfl

theorem trieInsert_eq {w : List Char} (hw : IsShortLowercase w) (n : Node) :
    trieInsert (some { root := some n }) (some w)
      = .ok (some { root := some (insertPath n (wordPath w)) }) := by
  have hv : isValidLowercaseWord (some w) = .ok true := isValid_some.2 hw
  have h := trieInsertLoop_eq hw.1 0 (by have := hw.2; omega) n
  simp only [Nat.cast_zero] at h
  simp [trieInsert, hv, h, bind, Except.bind]

theorem trieInsert_invalid (obj : Option Trie) {word : CString}
    (h : isValidLowercaseWord word = .ok false) : trieInsert obj word = .ok obj := by
  simp [trieInsert, h, bind, Except.bind]

theorem trieInsert_long (obj : Option Trie) {w : List Char} (hlow : ∀ c ∈ w, IsLowercase c)
    (hlen : 32767 < w.length) : trieInsert obj (some w) = .error .outOfBounds := by
  simp [trieInsert, isValid_long hlow hlen, bind, Except.bind]

theorem trieInsertAlloc_eq {w : List Char} (hw : IsShortLowercase w) (k : Nat)
    (n : Node) :
    trieInsertAlloc k (some { root := some n }) (some w)
      = .ok (some { root := some (insertPathAlloc k n (wordPath w)) }) := by
  have hv : isValidLowercaseWord (some w) = .ok true := isValid_some.2 hw
  have h := trieInsertLoopAlloc_eq hw.1 k 0 (by have := hw.2; omega) n
  simp only [Nat.cast_zero] at h
  simp [trieInsertAlloc, hv, h, bind, Except.bind]

theorem trieInsertAlloc_long (k : Nat) (obj : Option Trie) {w : List Char}
    (hlow : ∀ c ∈ w, IsLowercase c) (hlen : 32767 < w.length) :
    trieInsertAlloc k obj (some w) = .error .outOfBounds := by
  simp [trieInsertAlloc, isValid_long hlow hlen, bind, Except.bind]

theorem trieInsertAlloc_enough {w : List Char} (hw : IsShortLowercase w) (k : Nat)
    (n : Node) (hk : w.length ≤ k) :
    trieInsertAlloc k (some { root := some n }) (some w)
      = trieInsert (some { root := some n }) (some w) := by
  rw [trieInsertAlloc_eq hw, trieInsert_eq hw, insertPathAlloc_enough _ _ _
    (by rw [length_wordPath]; exact hk)]

theorem trieSearch_true {obj : Option Trie} {w : List Char}
    (h : trieSearch obj (some w) = .ok true) :
    IsShortLowercase w ∧ ∃ n, obj = some { root := some n } ∧
      endAt (some n) (wordPath w) = true := by
  cases obj with
  | none => simp [trieSearch] at h
  | some t =>
    cases t with
    | mk r =>
      cases r with
      | none => simp [trieSearch] at h
      | some n =>
        simp only [trieSearch, Option.isNone_some, Bool.false_eq_true, if_false,
          getLastNodeOfWord, bind, Except.bind] at h
        cases hl : getLastNodeLoop 0 (some n) w with
        | error e => rw [hl] at h; cases h
        | ok r =>
          cases r with
          | none => rw [hl] at h; simp at h
          | some x =>
            rw [hl] at h
            have hl0 : getLastNodeLoop ((0 : Nat) : Int) (some n) w = .ok (some x) := by
              simpa using hl
            obtain ⟨h1, h2, h3⟩ := getLastNodeLoop_some 0 (by omega) hl0
            refine ⟨⟨h1, by omega⟩, n, rfl, ?_⟩
            simp only [endAt, h3]
            cases he : x.isEndNode with
            | true => rfl
            | false => simp [he] at h

/-! ## Calls that return -/

theorem trieRemove_ok {obj obj1 : Option Trie} {word : CString}
    (h : trieRemove obj word = .ok obj1) :
    obj1 = obj ∨ ∃ n p, obj = some { root := some n } ∧
      obj1 = some { root := removePath (some n) p } := by
  cases word with
  | none => left; cases obj <;> (simp only [trieRemove] at h; cases h; rfl)
  | some w =>
    cases obj with
    | none => left; simp only [trieRemove] at h; cases h; rfl
    | some t =>
      cases t with
      | mk r =>
        cases r with
        | none => left; simp [trieRemove] at h; rw [h]
        | some n =>
          right
          simp only [trieRemove, Option.isNone_some, Bool.false_eq_true, if_false, bind,
            Except.bind] at h
          cases hrec : recursiveRemove (some n) w 0 with
          | error e => rw [hrec] at h; cases h
          | ok r1 =>
            rw [hrec] at h
            obtain ⟨p, hp⟩ := recursiveRemove_ok hrec
            cases h
            exact ⟨n, p, rfl, by rw [hp]⟩

theorem trieInsert_ok {obj obj1 : Option Trie} {word : CString}
    (h : trieInsert obj word = .ok obj1) :
    obj1 = obj ∨ ∃ n p, p.length ≤ 32767 ∧ obj = some { root := some n } ∧
      obj1 = some { root := some (insertPath n p) } := by
  cases hv : isValidLowercaseWord word with
  | error e => simp [trieInsert, hv, bind, Except.bind] at h
  | ok valid =>
    cases valid with
    | false =>
      rw [trieInsert_invalid obj hv] at h
      cases h; exact Or.inl rfl
    | true =>
      obtain ⟨w, rfl, hw⟩ := isValid_none_or_short hv
      cases obj with
      | none => simp [trieInsert, hv, bind, Except.bind] at h
      | some t =>
        cases t with
        | mk r =>
          cases r with
          | none =>
            cases w with
            | nil =>
              simp [trieInsert, hv, trieInsertLoop, bind, Except.bind] at h
              exact Or.inl h.symm
            | cons c rest =>
              simp [trieInsert, hv, trieInsertLoop, getNextNode, bind, Except.bind] at h
          | some n =>
            rw [trieInsert_eq hw n] at h
            cases h
            exact Or.inr ⟨n, wordPath w, by rw [length_wordPath]; exact hw.2, rfl, rfl⟩

theorem trieInsert_empty (t : Trie) : trieInsert (some t) (some []) = .ok (some t) := by
  cases t
  rfl

/-! ## Invariants of the tries the interface produces -/

theorem noDead_root (n : Node) : NoDead (some { root := some n }) ↔ NoDeadBelow n := by
  constructor
  · intro h; exact h _ n rfl rfl
  · intro h t m ht hm
    cases ht
    cases hm
    exact h

theorem noDead_root_none : NoDead (some { root := none }) := by
  intro t m ht hm
  cases ht
  cases hm

theorem noDead_trieCreate : NoDead trieCreate :=
  (noDead_root nodeCreate).2 noDeadBelow_nodeCreate

theorem noDead_trieInsert {obj obj1 : Option Trie} {word : CString} (hd : NoDead obj)
    (h : trieInsert obj word = .ok obj1) : NoDead obj1 := by
  rcases trieInsert_ok h with rfl | ⟨n, p, _, rfl, rfl⟩
  · exact hd
  · exact (noDead_root _).2 (noDeadBelow_insertPath n p ((noDead_root n).1 hd))

theorem noDead_trieRemove {obj obj1 : Option Trie} {word : CString} (hd : NoDead obj)
    (h : trieRemove obj word = .ok obj1) : NoDead obj1 := by
  rcases trieRemove_ok h with rfl | ⟨n, p, rfl, rfl⟩
  · exact hd
  · cases hr : removePath (some n) p with
    | none => exact noDead_root_none
    | some n1 => exact (noDead_root _).2 (noDeadBelow_removePath p ((noDead_root n).1 hd) hr)

theorem noDead_reachable {obj : Option Trie} (h : Reachable obj) : NoDead obj := by
  induction h with
  | create => exact noDead_trieCreate
  | insert obj obj1 word _ hins ih => exact noDead_trieInsert ih hins
  | remove obj obj1 word _ hrem ih => exact noDead_trieRemove ih hrem

theorem rootNotEnd_reachable {obj : Option Trie} (h : Reachable obj) :
    ∀ n, obj = some { root := some n } → n.isEndNode = false := by
  induction h with
  | create =>
    intro n hn
    cases hn
    rfl
  | insert obj obj1 word _ hins ih =>
    intro n1 hn1
    rcases trieInsert_ok hins with rfl | ⟨n, p, _, rfl, rfl⟩
    · exact ih n1 hn1
    · cases hn1
      rw [isEndNode_insertPath]
      exact ih n rfl
  | remove obj obj1 word _ hrem ih =>
    intro n1 hn1
    rcases trieRemove_ok hrem with rfl | ⟨n, p, rfl, rfl⟩
    · exact ih n1 hn1
    · simp only [Option.some.injEq, Trie.mk.injEq] at hn1
      exact isEndNode_removePath hn1 (ih n rfl)

theorem reachable_isSome {obj : Option Trie} (h : Reachable obj) : obj.isSome = true := by
  induction h with
  | create => rfl
  | insert obj obj1 word _ hins ih =>
    rcases trieInsert_ok hins with rfl | ⟨n, p, _, rfl, rfl⟩
    · exact ih
    · rfl
  | remove obj obj1 word _ hrem ih =>
    rcases trieRemove_ok hrem with rfl | ⟨n, p, rfl, rfl⟩
    · exact ih
    · rfl

theorem depthBounded_reachable {obj : Option Trie} (h : Reachable obj) :
    ∀ t, obj = some t → DepthBounded t.root 32767 := by
  induction h with
  | create =>
    intro t ht
    cases ht
    exact depthBounded_nodeCreate _
  | insert obj obj1 word _ hins ih =>
    intro t1 ht1
    rcases trieInsert_ok hins with rfl | ⟨n, p, hp, rfl, rfl⟩
    · exact ih t1 ht1
    · cases ht1
      exact depthBounded_insertPath p (ih _ rfl) hp
  | remove obj obj1 word _ hrem ih =>
    intro t1 ht1
    rcases trieRemove_ok hrem with rfl | ⟨n, p, rfl, rfl⟩
    · exact ih t1 ht1
    · cases ht1
      exact depthBounded_removePath p (ih _ rfl)

theorem walkFits_reachable {t : Trie} (h : Reachable (some t)) (p : List (Fin 26)) :
    WalkFits 0 t.root p :=
  walkFits_of_depthBounded p (depthBounded_reachable h t rfl) (by omega)


/-! ## A word of 32768 letters and a chain of 32768 links -/

theorem isLowercase_longWord : ∀ c ∈ longWord, IsLowercase c := by
  intro c hc
  rw [longWord, List.mem_cons] at hc
  rcases hc with rfl | hc
  · unfold IsLowercase; decide
  · rw [List.eq_of_mem_replicate hc]
    unfold IsLowercase; decide

theorem length_longWord : longWord.length = 32768 := by
  rw [longWord, List.length_cons, List.length_replicate]

theorem longWord_ne_nil : longWord ≠ [] := by
  rw [longWord]
  exact List.cons_ne_nil _ _

theorem isValid_longWord : isValidLowercaseWord (some longWord) = .error .outOfBounds :=
  isValid_long isLowercase_longWord (by rw [length_longWord]; omega)

theorem trieInsert_longWord (obj : Option Trie) :
    trieInsert obj (some longWord) = .error .outOfBounds :=
  trieInsert_long obj isLowercase_longWord (by rw [length_longWord]; omega)

theorem recursiveRemove_chain_fault (k d : Nat) (hd : d ≤ 32767) (hk : 32767 < d + k) :
    recursiveRemove (some (chainNode k)) (List.replicate k 'a') d = .error .outOfBounds := by
  induction k generalizing d with
  | zero => omega
  | succ k1 ih =>
    have ha : IsLowercase 'a' := by unfold IsLowercase; decide
    have hslot : letterSlot 'a' = 0 := by decide
    rw [List.replicate_succ, recursiveRemove]
    simp only [natCast_not_neg, if_false, getNextNode_some ha, bind, Except.bind, hslot]
    have hchild : (chainNode (k1 + 1)).pointerArray 0 = some (chainNode k1) := by
      simp [chainNode]
    rw [hchild]
    by_cases hlt : d + 1 ≤ 32767
    · rw [toShort_succ d hlt, ih (d + 1) hlt (by omega)]
    · rw [recursiveRemove_neg (toShort_wrap d (by omega))]

theorem trieRemove_of_fault {n : Node} {w : List Char} {e : Fault}
    (h : recursiveRemove (some n) w 0 = .error e) :
    trieRemove (some { root := some n }) (some w) = .error e := by
  simp only [trieRemove, Option.isNone_some, Bool.false_eq_true, if_false, h, bind,
    Except.bind]

theorem trieRemove_chain_fault :
    trieRemove (some { root := some (chainNode 32768) }) (some (List.replicate 32768 'a'))
      = .error .outOfBounds :=
  trieRemove_of_fault (recursiveRemove_chain_fault 32768 0 (by omega) (by omega))

theorem getLastNodeLoop_chain_fault (k d : Nat) (hd : d ≤ 32767) (hk : 32767 < d + k) :
    getLastNodeLoop d (some (chainNode k)) (List.replicate k 'a') = .error .outOfBounds := by
  induction k generalizing d with
  | zero => omega
  | succ k1 ih =>
    have ha : IsLowercase 'a' := by unfold IsLowercase; decide
    have hslot : letterSlot 'a' = 0 := by decide
    rw [List.replicate_succ, getLastNodeLoop]
    simp only [natCast_not_neg, if_false, getNextNode_some ha, bind, Except.bind, hslot]
    have hchild : (chainNode (k1 + 1)).pointerArray 0 = some (chainNode k1) := by
      simp [chainNode]
    rw [hchild]
    by_cases hlt : d + 1 ≤ 32767
    · rw [toShort_succ d hlt]
      exact ih (d + 1) hlt (by omega)
    · exact getLastNodeLoop_neg (toShort_wrap d (by omega)) _ _

theorem trieSearch_of_fault {n : Node} {w : List Char} {e : Fault}
    (h : getLastNodeLoop 0 (some n) w = .error e) :
    trieSearch (some { root := some n }) (some w) = .error e := by
  simp only [trieSearch, getLastNodeOfWord, Option.isNone_some, Bool.false_eq_true, if_false,
    h, bind, Except.bind]

theorem trieSearch_chain_fault :
    trieSearch (some { root := some (chainNode 32768) }) (some (List.replicate 32768 'a'))
      = .error .outOfBounds :=
  trieSearch_of_fault (getLastNodeLoop_chain_fault 32768 0 (by omega) (by omega))

theorem isLowercase_replicate_a (k : Nat) : ∀ c ∈ List.replicate k 'a', IsLowercase c := by
  intro c hc
  rw [List.eq_of_mem_replicate hc]
  unfold IsLowercase; decide

theorem not_isLowercase_of_outside {c : Char}
    (h : c < A_LOWERCASE_CHAR ∨ c > Z_LOWERCASE_CHAR) : ¬ IsLowercase c := by
  intro hlow
  have hin := (not_outside_iff c).2 hlow
  simp only [Bool.or_eq_false_iff, decide_eq_false_iff_not] at hin
  rcases h with h1 | h1
  · exact hin.2 h1
  · exact hin.1 h1

theorem trieInsert_of_fault (obj : Option Trie) {word : CString} {e : Fault}
    (h : isValidLowercaseWord word = .error e) : trieInsert obj word = .error e := by
  simp only [trieInsert, h, bind, Except.bind]

theorem isValid_longWord_append (suf : List Char) :
    isValidLowercaseWord (some (longWord ++ suf)) = .error .outOfBounds :=
  isValid_long_prefix suf isLowercase_longWord (by rw [length_longWord]; omega)
/-! # Properties of the interface -/

/-! ## Search after insertion and removal -/

/-- C1, as stated, fails twice.  The empty word is accepted by `isValidLowercaseWord`, yet
`trieInsert` of it leaves the fresh trie as it is and `trieSearch` of it still answers false.
And on a word of 32768 lowercase letters the `short` counter of `isValidLowercaseWord` wraps
and reads before the word: neither the validation nor `trieInsert` returns. -/
theorem C1_empty_or_long_word_not_found :
    rootPresent trieCreate = true ∧ isValidLowercaseWord (some []) = .ok true ∧
      trieInsert trieCreate (some []) = .ok trieCreate ∧
      trieSearch trieCreate (some []) = .ok false ∧
      (∀ c ∈ longWord, IsLowercase c) ∧ longWord.length = 32768 ∧
      isValidLowercaseWord (some longWord) = .error .outOfBounds ∧
      trieInsert trieCreate (some longWord) = .error .outOfBounds :=
  ⟨rfl, rfl, rfl, rfl, isLowercase_longWord, length_longWord, isValid_longWord,
    trieInsert_longWord _⟩

/-- C1 (amended): for every trie with a present root and every non-empty word `w` for which
`isValidLowercaseWord` returns true (every character in `a..z`, at most 32767 of them),
`trieInsert` of `w` returns and `trieSearch` of `w` on the resulting trie returns true. -/
theorem C1_search_after_insert (obj : Option Trie) (w : List Char)
    (hroot : rootPresent obj = true) (hvalid : isValidLowercaseWord (some w) = .ok true)
    (hne : w ≠ []) :
    ∃ obj1, trieInsert obj (some w) = .ok obj1 ∧ trieSearch obj1 (some w) = .ok true := by
  obtain ⟨n, rfl⟩ := rootPresent_iff.1 hroot
  have hw := isValid_some.1 hvalid
  refine ⟨_, trieInsert_eq hw n, ?_⟩
  rw [trieSearch_eq hw]
  have hp : wordPath w ≠ [] := by
    cases w with
    | nil => exact absurd rfl hne
    | cons c rest => simp [wordPath]
  simp only [endAt_insertPath n hp]

/-- C1 (amended) at the fresh trie and the word "dog". -/
theorem C1_search_after_insert_witness :
    rootPresent trieCreate = true ∧ isValidLowercaseWord (some ['d', 'o', 'g']) = .ok true ∧
      ∃ obj1, trieInsert trieCreate (some ['d', 'o', 'g']) = .ok obj1 ∧
        trieSearch obj1 (some ['d', 'o', 'g']) = .ok true :=
  ⟨rfl, by decide, C1_search_after_insert trieCreate ['d', 'o', 'g'] rfl (by decide) (by simp)⟩

/-- C2, as stated, fails on a lowercase word of 32768 letters: the `short` counter of the
validation wraps and `trieInsert` on the fresh trie does not return. -/
theorem C2_long_word_insert_faults :
    rootPresent trieCreate = true ∧ (∀ c ∈ longWord, IsLowercase c) ∧
      longWord.length = 32768 ∧
      trieInsert trieCreate (some longWord) = .error .outOfBounds :=
  ⟨rfl, isLowercase_longWord, length_longWord, trieInsert_longWord _⟩

/-- C2 (amended): for every lowercase word `w` of at most 32767 characters (the words for
which `isValidLowercaseWord` returns true), `trieRemove` of `w` returns on any trie (present,
absent, with or without a root) and `trieSearch` of `w` on the result is false; and on a trie
with a present root `trieInsert` of `w` followed by `trieRemove` of `w` returns a trie on which
`trieSearch` of `w` is false. -/
theorem C2_search_after_remove (obj : Option Trie) (w : List Char)
    (hvalid : isValidLowercaseWord (some w) = .ok true) :
    (∃ obj2, trieRemove obj (some w) = .ok obj2 ∧ trieSearch obj2 (some w) = .ok false) ∧
      (rootPresent obj = true →
        ∃ obj1 obj2, trieInsert obj (some w) = .ok obj1 ∧
          trieRemove obj1 (some w) = .ok obj2 ∧ trieSearch obj2 (some w) = .ok false) := by
  have hw := isValid_some.1 hvalid
  have key : ∀ o : Option Trie,
      ∃ obj2, trieRemove o (some w) = .ok obj2 ∧ trieSearch obj2 (some w) = .ok false := by
    intro o
    cases o with
    | none => exact ⟨none, rfl, rfl⟩
    | some t =>
      refine ⟨_, trieRemove_eq hw t, ?_⟩
      rw [trieSearch_eq hw, endAt_removePath_self]
  refine ⟨key obj, fun hroot => ?_⟩
  obtain ⟨n, rfl⟩ := rootPresent_iff.1 hroot
  obtain ⟨obj2, h2, h3⟩ := key (some { root := some (insertPath n (wordPath w)) })
  exact ⟨_, obj2, trieInsert_eq hw n, h2, h3⟩

/-- C2 (amended) at the fresh trie and the word "dog". -/
theorem C2_search_after_remove_witness :
    isValidLowercaseWord (some ['d', 'o', 'g']) = .ok true ∧
      ∃ obj1 obj2, trieInsert trieCreate (some ['d', 'o', 'g']) = .ok obj1 ∧
        trieRemove obj1 (some ['d', 'o', 'g']) = .ok obj2 ∧
        trieSearch obj2 (some ['d', 'o', 'g']) = .ok false :=
  ⟨by decide, (C2_search_after_remove trieCreate ['d', 'o', 'g'] (by decide)).2 rfl⟩

/-- C3, as stated for every trie and all lowercase words, fails on a trie whose path of the
letter `a` is 32768 links deep.  With `w` the word of 32768 letters `a` and `v` the word "b",
`trieRemove` of `w` passes `depth + 1 = 32768` into its `short` parameter and reads before
the word, so it does not return and there is no trie on which to search `v` afterwards.
With the roles exchanged, `trieSearch` of the long word wraps its `short` index in the same
way and gives no answer to compare. -/
theorem C3_long_word_remove_faults :
    (∀ c ∈ List.replicate 32768 'a', IsLowercase c) ∧ (∀ c ∈ ['b'], IsLowercase c) ∧
      ['b'] ≠ List.replicate 32768 'a' ∧
      trieRemove (some { root := some (chainNode 32768) }) (some (List.replicate 32768 'a'))
        = .error .outOfBounds ∧
      trieSearch (some { root := some (chainNode 32768) }) (some (List.replicate 32768 'a'))
        = .error .outOfBounds := by
  refine ⟨isLowercase_replicate_a _, ?_, ?_, trieRemove_chain_fault, trieSearch_chain_fault⟩
  · intro c hc
    rw [List.mem_singleton.1 hc]
    unfold IsLowercase; decide
  · intro h
    have := congrArg List.length h
    rw [List.length_replicate] at this
    cases this

/-- C3 (amended): `trieRemove` of a lowercase word `w` of at most 32767 characters returns
on every trie and leaves the answer of `trieSearch` unchanged for every lowercase word `v` of
at most 32767 characters other than `w`; and on every trie with a present root, after
inserting "cat" and "car" and removing "cat", `trieSearch` of "car" is true, `trieSearch` of
"cat" is false and `trieStartsWith` of "ca" is true. -/
theorem C3_remove_keeps_other_words (obj : Option Trie) (w v : List Char)
    (hw : isValidLowercaseWord (some w) = .ok true)
    (hv : isValidLowercaseWord (some v) = .ok true) (hne : v ≠ w) :
    (∃ obj1 b, trieRemove obj (some w) = .ok obj1 ∧
        trieSearch obj (some v) = .ok b ∧ trieSearch obj1 (some v) = .ok b) ∧
      (rootPresent obj = true →
        ∃ o1 o2 o3, trieInsert obj (some ['c', 'a', 't']) = .ok o1 ∧
          trieInsert o1 (some ['c', 'a', 'r']) = .ok o2 ∧
          trieRemove o2 (some ['c', 'a', 't']) = .ok o3 ∧
          trieSearch o3 (some ['c', 'a', 'r']) = .ok true ∧
          trieSearch o3 (some ['c', 'a', 't']) = .ok false ∧
          trieStartsWith o3 (some ['c', 'a']) = .ok true) := by
  have hw1 := isValid_some.1 hw
  have hv1 := isValid_some.1 hv
  constructor
  · cases obj with
    | none => exact ⟨none, false, rfl, rfl, rfl⟩
    | some t =>
      refine ⟨_, _, trieRemove_eq hw1 t, trieSearch_eq hv1 t, ?_⟩
      rw [trieSearch_eq hv1]
      have hp : wordPath v ≠ wordPath w := fun h => hne (wordPath_injective hv1.1 hw1.1 h)
      simp only [endAt_removePath_other t.root hp]
  · intro hroot
    obtain ⟨n, rfl⟩ := rootPresent_iff.1 hroot
    have hcat : IsShortLowercase ['c', 'a', 't'] := isValid_some.1 (by decide)
    have hcar : IsShortLowercase ['c', 'a', 'r'] := isValid_some.1 (by decide)
    have hca : IsShortLowercase ['c', 'a'] := isValid_some.1 (by decide)
    have hdiff : wordPath ['c', 'a', 'r'] ≠ wordPath ['c', 'a', 't'] := by decide
    have hcarEnd : endAt (removePath (some (insertPath (insertPath n (wordPath ['c', 'a', 't']))
        (wordPath ['c', 'a', 'r']))) (wordPath ['c', 'a', 't'])) (wordPath ['c', 'a', 'r'])
        = true := by
      rw [endAt_removePath_other _ hdiff]
      exact endAt_insertPath _ (by decide)
    refine ⟨_, _, _, trieInsert_eq hcat n, trieInsert_eq hcar _, trieRemove_eq hcat _, ?_, ?_, ?_⟩
    · rw [trieSearch_eq hcar]
      simp only [hcarEnd]
    · rw [trieSearch_eq hcat]
      simp only [endAt_removePath_self]
    · rw [trieStartsWith_eq hca (by simp)]
      have hsome := walkPath_isSome_of_endAt _ (wordPath ['c', 'a']) [letterSlot 'r'] hcarEnd
      rw [hsome]

/-- C3 (amended) at the trie holding "dog": removing "dot" keeps "dog" stored. -/
theorem C3_remove_keeps_other_words_witness :
    isValidLowercaseWord (some ['d', 'o', 't']) = .ok true ∧
      isValidLowercaseWord (some ['d', 'o', 'g']) = .ok true ∧
      ∃ o1 o2, trieInsert trieCreate (some ['d', 'o', 'g']) = .ok o1 ∧
        trieRemove o1 (some ['d', 'o', 't']) = .ok o2 ∧
        trieSearch o1 (some ['d', 'o', 'g']) = .ok true ∧
        trieSearch o2 (some ['d', 'o', 'g']) = .ok true := by
  obtain ⟨o2, b, h1, h2, h3⟩ :=
    (C3_remove_keeps_other_words
      (some { root := some (insertPath nodeCreate (wordPath ['d', 'o', 'g'])) })
      ['d', 'o', 't'] ['d', 'o', 'g'] (by decide) (by decide) (by decide)).1
  have hb : trieSearch (some { root := some (insertPath nodeCreate (wordPath ['d', 'o', 'g'])) })
      (some ['d', 'o', 'g']) = .ok true := by decide
  rw [hb] at h2
  cases h2
  exact ⟨by decide, by decide, _, o2,
    trieInsert_eq (isValid_some.1 (by decide)) nodeCreate, h1, hb, h3⟩

/-! ## Removal of a word that is not stored -/

/-- C5, as stated for any sequence of calls on lowercase words, fails on a lowercase word of
32768 letters: `trieInsert` of it on the fresh trie wraps the `short` counter of the
validation, reads before the word and returns no trie of which the relation could hold. -/
theorem C5_long_word_call_faults :
    Reachable trieCreate ∧ rootPresent trieCreate = true ∧
      (∀ c ∈ longWord, IsLowercase c) ∧ longWord.length = 32768 ∧
      trieInsert trieCreate (some longWord) = .error .outOfBounds :=
  ⟨Reachable.create, rfl, isLowercase_longWord, length_longWord, trieInsert_longWord _⟩

/-- C5 (amended): for every trie with a present root obtained from `trieCreate` by
`trieInsert` and `trieRemove` calls that return (calls on lowercase words of at most 32767
characters among them), and every lowercase prefix `p` of any length, `trieStartsWith` of `p`
returns, and its answer is true iff `p` is the empty string or some word `w` with
`trieSearch` of `w` true has `p` as a prefix. -/
theorem C5_startsWith_iff_stored_prefix (obj : Option Trie) (p : List Char)
    (hreach : Reachable obj) (hroot : rootPresent obj = true)
    (hlow : ∀ c ∈ p, IsLowercase c) :
    ∃ b, trieStartsWith obj (some p) = .ok b ∧
      (b = true ↔ (p = [] ∨ ∃ w, trieSearch obj (some w) = .ok true ∧ p <+: w)) := by
  obtain ⟨n, rfl⟩ := rootPresent_iff.1 hroot
  have hd := (noDead_root n).1 (noDead_reachable hreach)
  cases p with
  | nil => exact ⟨true, rfl, by simp⟩
  | cons c rest =>
    refine ⟨_, trieStartsWith_eq_fits hlow (by simp) _ (walkFits_reachable hreach _), ?_⟩
    constructor
    · intro hsome
      right
      cases hx : walkPath (some n) (wordPath (c :: rest)) with
      | none => simp [hx] at hsome
      | some x =>
        have hax : Alive x := hd _ x (by simp [wordPath]) hx
        obtain ⟨q, hq⟩ := exists_endAt x hax (noDeadBelow_walk hd hx)
        refine ⟨(c :: rest) ++ pathWord q, ?_, List.prefix_append _ _⟩
        have hw : ∀ d ∈ (c :: rest) ++ pathWord q, IsLowercase d := by
          intro d hd1
          rcases List.mem_append.1 hd1 with h1 | h1
          · exact hlow d h1
          · exact isLowercase_pathWord q d h1
        rw [trieSearch_eq_fits hw _ (walkFits_reachable hreach _)]
        have hpath : wordPath ((c :: rest) ++ pathWord q) = wordPath (c :: rest) ++ q := by
          rw [wordPath, List.map_append]
          exact congrArg _ (wordPath_pathWord q)
        have : endAt (some n) (wordPath (c :: rest) ++ q) = true := by
          unfold endAt
          rw [walkPath_append, hx]
          exact hq
        simp only [hpath, this]
    · rintro (h | ⟨w, hw, r, rfl⟩)
      · cases h
      · obtain ⟨_, n1, hn1, he1⟩ := trieSearch_true hw
        simp only [Option.some.injEq, Trie.mk.injEq] at hn1
        subst hn1
        have he : endAt (some n) (wordPath (c :: rest) ++ wordPath r) = true := by
          have : wordPath ((c :: rest) ++ r) = wordPath (c :: rest) ++ wordPath r := by
            simp [wordPath]
          rw [← this]
          exact he1
        exact walkPath_isSome_of_endAt _ _ _ he

/-- C5 (amended) at the trie holding "dog" and the prefix "do". -/
theorem C5_startsWith_iff_stored_prefix_witness :
    ∃ obj, trieInsert trieCreate (some ['d', 'o', 'g']) = .ok obj ∧ Reachable obj ∧
      rootPresent obj = true ∧ (∀ c ∈ ['d', 'o'], IsLowercase c) ∧
      ∃ b, trieStartsWith obj (some ['d', 'o']) = .ok b ∧
        (b = true ↔ (['d', 'o'] = [] ∨
          ∃ w, trieSearch obj (some w) = .ok true ∧ ['d', 'o'] <+: w)) :=
  ⟨some { root := some (insertPath nodeCreate (wordPath ['d', 'o', 'g'])) },
    trieInsert_eq (isValid_some.1 (by decide)) nodeCreate,
    Reachable.insert _ _ _ Reachable.create
      (trieInsert_eq (isValid_some.1 (by decide)) nodeCreate),
    rfl, (isValid_some.1 (by decide)).1,
    C5_startsWith_iff_stored_prefix _ ['d', 'o']
      (Reachable.insert _ _ _ Reachable.create
        (trieInsert_eq (isValid_some.1 (by decide)) nodeCreate))
      rfl (isValid_some.1 (by decide)).1⟩

/-- C8, as stated for every word, fails on a lowercase word of 32768 letters: already the
first `trieInsert` of it on the fresh trie wraps the `short` counter of the validation, reads
before the word and does not return. -/
theorem C8_long_word_insert_faults :
    rootPresent trieCreate = true ∧ (∀ c ∈ longWord, IsLowercase c) ∧
      longWord.length = 32768 ∧
      trieInsert trieCreate (some longWord) = .error .outOfBounds :=
  ⟨rfl, isLowercase_longWord, length_longWord, trieInsert_longWord _⟩

/-- C8 (amended): for every trie with a present root and every word that is NULL or has at
most 32767 characters (invalid words included), `trieInsert` returns, and a second
`trieInsert` of the same word returns the very trie the first one produced. -/
theorem C8_insert_idempotent (obj : Option Trie) (word : CString)
    (hroot : rootPresent obj = true) (hlen : ∀ w, word = some w → w.length ≤ 32767) :
    ∃ obj1, trieInsert obj word = .ok obj1 ∧ trieInsert obj1 word = .ok obj1 := by
  obtain ⟨valid, hv⟩ := isValid_returns word hlen
  cases valid with
  | false => exact ⟨obj, trieInsert_invalid obj hv, trieInsert_invalid obj hv⟩
  | true =>
    obtain ⟨w, rfl, hw⟩ := isValid_none_or_short hv
    obtain ⟨n, rfl⟩ := rootPresent_iff.1 hroot
    refine ⟨_, trieInsert_eq hw n, ?_⟩
    rw [trieInsert_eq hw, insertPath_idem]

/-- C8 (amended) at the fresh trie and the word "dog". -/
theorem C8_insert_idempotent_witness :
    rootPresent trieCreate = true ∧ ['d', 'o', 'g'].length ≤ 32767 ∧
      ∃ obj1, trieInsert trieCreate (some ['d', 'o', 'g']) = .ok obj1 ∧
        trieInsert obj1 (some ['d', 'o', 'g']) = .ok obj1 :=
  ⟨rfl, by decide,
    C8_insert_idempotent trieCreate (some ['d', 'o', 'g']) rfl
      (fun w h => by cases h; decide)⟩

/-- C9, as stated for an invalid character anywhere in the word, fails when 32768 lowercase
letters stand before it: on the word of 32768 letters `a` followed by `A` the `short` counter
of `isValidLowercaseWord` wraps before it reaches the `A` and reads before the word, so
`trieInsert` does not return the trie unchanged: it does not return. -/
theorem C9_invalid_after_long_prefix_faults :
    'A' ∈ longWord ++ ['A'] ∧ ('A' < A_LOWERCASE_CHAR ∨ 'A' > Z_LOWERCASE_CHAR) ∧
      (longWord ++ ['A']).length = 32769 ∧
      isValidLowercaseWord (some (longWord ++ ['A'])) = .error .outOfBounds ∧
      trieInsert trieCreate (some (longWord ++ ['A'])) = .error .outOfBounds := by
  refine ⟨List.mem_append_right _ (List.mem_singleton.2 rfl), by decide, ?_,
    isValid_longWord_append _, trieInsert_of_fault _ (isValid_longWord_append _)⟩
  rw [List.length_append, length_longWord, List.length_singleton]

/-- C9 (amended): for every trie (absent tries included) and every word that is NULL or has a
character below `a` or above `z` among its first 32768 characters, wherever among them that
character stands, `trieInsert` returns the trie unchanged. -/
theorem C9_insert_rejects_invalid (obj : Option Trie) (word : CString)
    (h : word = none ∨ ∃ w, word = some w ∧
      ∃ c ∈ w.take 32768, c < A_LOWERCASE_CHAR ∨ c > Z_LOWERCASE_CHAR) :
    trieInsert obj word = .ok obj := by
  rcases h with rfl | ⟨w, rfl, c, hc, hout⟩
  · exact trieInsert_invalid obj rfl
  · exact trieInsert_invalid obj (isValid_invalid ⟨c, hc, not_isLowercase_of_outside hout⟩)

/-- C9 (amended) at the fresh trie and the word "doG", whose invalid character follows the
lowercase prefix "do". -/
theorem C9_insert_rejects_invalid_witness :
    'G' ∈ ['d', 'o', 'G'].take 32768 ∧ ('G' < A_LOWERCASE_CHAR ∨ 'G' > Z_LOWERCASE_CHAR) ∧
      trieInsert trieCreate (some ['d', 'o', 'G']) = .ok trieCreate :=
  ⟨by simp, by decide,
    C9_insert_rejects_invalid trieCreate (some ['d', 'o', 'G'])
      (Or.inr ⟨_, rfl, 'G', by simp, by decide⟩)⟩

/-! ## Removal of the only word -/

/-- C10, as stated for every non-empty valid lowercase word, fails on a lowercase word of
32768 letters: `trieInsert` of it on the fresh trie wraps the `short` counter of the
validation, reads before the word and does not return, so there is no trie to remove it
from. -/
theorem C10_long_word_insert_faults :
    (∀ c ∈ longWord, IsLowercase c) ∧ longWord ≠ [] ∧ longWord.length = 32768 ∧
      trieInsert trieCreate (some longWord) = .error .outOfBounds :=
  ⟨isLowercase_longWord, longWord_ne_nil, length_longWord, trieInsert_longWord _⟩

/-- C10 (amended): for every non-empty lowercase word `w` of at most 32767 characters (the
words for which `isValidLowercaseWord` returns true), `trieInsert` of `w` into the fresh trie
followed by `trieRemove` of `w` returns the trie whose root pointer is NULL, so that no node
of the path of `w` remains, and `trieStartsWith` is false on it for every non-empty prefix of
`w`. -/
theorem C10_remove_only_word_prunes_path (w : List Char)
    (hvalid : isValidLowercaseWord (some w) = .ok true) (hne : w ≠ []) :
    ∃ obj1, trieInsert trieCreate (some w) = .ok obj1 ∧
      trieRemove obj1 (some w) = .ok (some { root := none }) ∧
      ∀ p, p ≠ [] → p <+: w → trieStartsWith (some { root := none }) (some p) = .ok false := by
  have hw := isValid_some.1 hvalid
  have hp : wordPath w ≠ [] := by
    cases w with
    | nil => exact absurd rfl hne
    | cons c rest => simp [wordPath]
  refine ⟨_, trieInsert_eq hw nodeCreate, ?_, fun p _ _ => rfl⟩
  rw [trieRemove_eq hw]
  simp only [removePath_insertPath_fresh nodeIsEmpty_nodeCreate rfl hp]

/-- C10 (amended) at the word "dog" and its prefix "do". -/
theorem C10_remove_only_word_prunes_path_witness :
    isValidLowercaseWord (some ['d', 'o', 'g']) = .ok true ∧
      ∃ obj1, trieInsert trieCreate (some ['d', 'o', 'g']) = .ok obj1 ∧
        trieRemove obj1 (some ['d', 'o', 'g']) = .ok (some { root := none }) ∧
        trieStartsWith (some { root := none }) (some ['d', 'o']) = .ok false := by
  obtain ⟨obj1, h1, h2, h3⟩ :=
    C10_remove_only_word_prunes_path ['d', 'o', 'g'] (by decide) (by simp)
  exact ⟨by decide, obj1, h1, h2, h3 ['d', 'o'] (by simp) (by decide)⟩

/-! ## The empty word, validation and absent arguments -/

/-- C11: `trieInsert` of the empty word returns every trie unchanged, and in every trie
obtained from `trieCreate` by `trieInsert` and `trieRemove` calls the root, when present, has
`isEndNode` false, and `trieSearch` of the empty word returns false. -/
theorem C11_empty_word_never_stored (obj : Option Trie) (hreach : Reachable obj) :
    (∀ t : Trie, trieInsert (some t) (some []) = .ok (some t)) ∧
      trieInsert obj (some []) = .ok obj ∧
      (∀ n, obj = some { root := some n } → n.isEndNode = false) ∧
      trieSearch obj (some []) = .ok false := by
  refine ⟨trieInsert_empty, ?_, rootNotEnd_reachable hreach, ?_⟩
  · cases obj with
    | none => exact absurd (reachable_isSome hreach) (by simp)
    | some t => exact trieInsert_empty t
  · cases obj with
    | none => rfl
    | some t =>
      cases t with
      | mk r =>
        cases r with
        | none => rfl
        | some n =>
          rw [trieSearch_eq (w := []) (isValid_some.1 (by decide))]
          simp only [wordPath, List.map_nil, endAt_nil, rootNotEnd_reachable hreach n rfl]

/-- C11 at the trie obtained by inserting "a" and then the empty word. -/
theorem C11_empty_word_never_stored_witness :
    ∃ o1, trieInsert trieCreate (some ['a']) = .ok o1 ∧ Reachable o1 ∧
      trieInsert o1 (some []) = .ok o1 ∧ trieSearch o1 (some []) = .ok false := by
  have hreach : Reachable (some { root := some (insertPath nodeCreate (wordPath ['a'])) }) :=
    Reachable.insert _ _ _ Reachable.create
      (trieInsert_eq (isValid_some.1 (by decide)) nodeCreate)
  have h := C11_empty_word_never_stored _ hreach
  exact ⟨_, trieInsert_eq (isValid_some.1 (by decide)) nodeCreate, hreach, h.2.1, h.2.2.2⟩

/-- C13: on a trie whose root is absent `trieSearch` and `trieStartsWith` return false for
every word (NULL and the empty string included) and `trieRemove` returns the trie unchanged;
on an absent trie, and for an absent word on any trie, `trieSearch` returns false and
`trieRemove` changes nothing. -/
theorem C13_absent_root_trie_word (obj : Option Trie) (word : CString) :
    trieSearch (some { root := none }) word = .ok false ∧
      trieStartsWith (some { root := none }) word = .ok false ∧
      trieStartsWith (some { root := none }) (some []) = .ok false ∧
      trieRemove (some { root := none }) word = .ok (some { root := none }) ∧
      trieSearch none word = .ok false ∧ trieRemove none word = .ok none ∧
      trieSearch obj none = .ok false ∧ trieRemove obj none = .ok obj := by
  refine ⟨?_, rfl, rfl, ?_, trieSearch_none word, trieRemove_none word, ?_, ?_⟩
  · cases word <;> rfl
  · cases word <;> rfl
  · cases obj <;> rfl
  · cases obj <;> rfl

/-- C14 fails in the code: on the fresh trie the word "A" makes `getNextNode` index
`pointerArray` at `'A' - 'a' = -32`, outside `0..25`, in `trieSearch`, `trieStartsWith` and
`trieRemove` alike; no operation answers false or leaves the trie unchanged. -/
theorem C14_invalid_letter_indexes_out_of_bounds :
    rootPresent trieCreate = true ∧ isValidLowercaseWord (some ['A']) = .ok false ∧
      letterArrayIndex 'A' = -32 ∧
      getNextNode (some nodeCreate) 'A' = .error .outOfBounds ∧
      trieSearch trieCreate (some ['A']) = .error .outOfBounds ∧
      trieStartsWith trieCreate (some ['A']) = .error .outOfBounds ∧
      trieRemove trieCreate (some ['A']) = .error .outOfBounds :=
  ⟨rfl, by decide, by decide, rfl, by decide, by decide, rfl⟩

/-- C15: the trie `trieCreate` returns has a present root with all 26 slots absent and
`isEndNode` false; on it `trieSearch` is false for every lowercase word, of any length,
`trieStartsWith` is true for the empty string and false for every non-empty lowercase
prefix, of any length. -/
theorem C15_fresh_trie_is_empty (w : List Char) (hlow : ∀ c ∈ w, IsLowercase c) :
    trieCreate = some { root := some nodeCreate } ∧
      (∀ i, nodeCreate.pointerArray i = none) ∧ nodeCreate.isEndNode = false ∧
      trieSearch trieCreate (some w) = .ok false ∧
      trieStartsWith trieCreate (some []) = .ok true ∧
      (w ≠ [] → trieStartsWith trieCreate (some w) = .ok false) := by
  have hwalk : ∀ p : List (Fin 26), p ≠ [] → walkPath (some nodeCreate) p = none := by
    intro p hp
    cases p with
    | nil => exact absurd rfl hp
    | cons s rest => simp [nodeCreate]
  have hfit : WalkFits 0 (some nodeCreate) (wordPath w) :=
    walkFits_of_depthBounded _ (depthBounded_nodeCreate 0) (by omega)
  refine ⟨rfl, fun _ => rfl, rfl, ?_, rfl, ?_⟩
  · rw [trieCreate, trieSearch_eq_fits hlow _ hfit]
    cases w with
    | nil => rfl
    | cons c rest =>
      simp only [endAt, hwalk (wordPath (c :: rest)) (by simp [wordPath])]
  · intro hne
    rw [trieCreate, trieStartsWith_eq_fits hlow hne _ hfit]
    have hp : wordPath w ≠ [] := by
      cases w with
      | nil => exact absurd rfl hne
      | cons c rest => simp [wordPath]
    simp only [hwalk (wordPath w) hp, Option.isSome_none]

/-- C15 at the word "dog". -/
theorem C15_fresh_trie_is_empty_witness :
    (∀ c ∈ ['d', 'o', 'g'], IsLowercase c) ∧
      trieSearch trieCreate (some ['d', 'o', 'g']) = .ok false ∧
      trieStartsWith trieCreate (some []) = .ok true ∧
      trieStartsWith trieCreate (some ['d', 'o', 'g']) = .ok false := by
  have h := C15_fresh_trie_is_empty ['d', 'o', 'g'] (isValid_some.1 (by decide)).1
  exact ⟨(isValid_some.1 (by decide)).1, h.2.2.2.1, h.2.2.2.2.1, h.2.2.2.2.2 (by simp)⟩

/-! ## What a removal deletes -/

/-- C16: for every trie and every stored word `w` (a word for which `trieSearch` returns
true: it is then lowercase, and the `short` index of the walk lets that happen for words of
at most 32767 letters only), `trieRemove` of `w` returns; the path of `w` had a node at every
depth `0..|w|`; the node at depth `d` is gone afterwards iff every path node at a depth `d1 ≥ d` has
no child off the path (none at all at depth `|w|`) and, for `d1 < |w|`, has `isEndNode` false;
a path node that survives keeps its off-path links and its end marker, except that the marker
of the last node is cleared; and everything reached by a path that is not a prefix of the
path of `w` is unchanged. -/
theorem C16_remove_prunes_dead_suffix (obj : Option Trie) (w : List Char)
    (hstored : trieSearch obj (some w) = .ok true) :
    (∀ c ∈ w, IsLowercase c) ∧ w.length ≤ 32767 ∧
    ∃ n r, obj = some { root := some n } ∧
      trieRemove obj (some w) = .ok (some { root := r }) ∧
      (∀ d, d ≤ w.length → (walkPath (some n) ((wordPath w).take d)).isSome = true) ∧
      (∀ d, d ≤ w.length →
        (walkPath r ((wordPath w).take d) = none ↔
          ∀ d1, d ≤ d1 → d1 ≤ w.length → DeadPathNode (some n) (wordPath w) d1)) ∧
      (∀ d x1, d ≤ w.length → walkPath r ((wordPath w).take d) = some x1 →
        ∃ x, walkPath (some n) ((wordPath w).take d) = some x ∧
          x1.isEndNode = (if d = w.length then false else x.isEndNode) ∧
          ∀ s, (wordPath w)[d]? ≠ some s → x1.pointerArray s = x.pointerArray s) ∧
      (∀ q, ¬ q <+: wordPath w → walkPath r q = walkPath (some n) q) := by
  have hlen : (wordPath w).length = w.length := length_wordPath w
  obtain ⟨hw, n, rfl, hend⟩ := trieSearch_true hstored
  obtain ⟨x, hx⟩ : ∃ x, walkPath (some n) (wordPath w) = some x := by
    unfold endAt at hend
    cases hwk : walkPath (some n) (wordPath w) with
    | none => rw [hwk] at hend; cases hend
    | some x => exact ⟨x, rfl⟩
  refine ⟨hw.1, hw.2, n, removePath (some n) (wordPath w), rfl, trieRemove_eq hw _,
    fun d _ => walkPath_take_isSome hx d, ?_, ?_,
    fun q hq => walkPath_removePath_off_path (some n) hq⟩
  · intro d hd
    rw [← hlen] at hd
    rw [← hlen]
    exact walkPath_removePath_take_eq_none_iff hx d hd
  · intro d x1 hd h1
    rw [← hlen] at hd
    obtain ⟨y, hy, he⟩ := walkPath_removePath_take_isEndNode hx d hd h1
    refine ⟨y, hy, by rw [he, hlen], ?_⟩
    intro s hs
    have hoff := walkPath_removePath_off_path (some n) (not_prefix_take_append hd hs)
    rw [walkPath_append, walkPath_append, h1, hy] at hoff
    simpa using hoff

/-- C16 at the trie holding "cat" and "car", removing "cat": the node of "cat" (depth 3) is
deleted, the node of "ca" (depth 2), which has the child for "r", is not, and the node of
"car" is the one it was. -/
theorem C16_remove_prunes_dead_suffix_witness :
    ∃ o1 n2 r, trieInsert trieCreate (some ['c', 'a', 't']) = .ok o1 ∧
      trieInsert o1 (some ['c', 'a', 'r']) = .ok (some { root := some n2 }) ∧
      (∀ c ∈ ['c', 'a', 't'], IsLowercase c) ∧
      trieSearch (some { root := some n2 }) (some ['c', 'a', 't']) = .ok true ∧
      trieRemove (some { root := some n2 }) (some ['c', 'a', 't']) = .ok (some { root := r }) ∧
      walkPath r ((wordPath ['c', 'a', 't']).take 3) = none ∧
      (walkPath r ((wordPath ['c', 'a', 't']).take 2)).isSome = true ∧
      walkPath r (wordPath ['c', 'a', 'r']) = walkPath (some n2) (wordPath ['c', 'a', 'r']) := by
  have hs : trieSearch (some { root := some (insertPath (insertPath nodeCreate
      (wordPath ['c', 'a', 't'])) (wordPath ['c', 'a', 'r'])) }) (some ['c', 'a', 't'])
      = .ok true := by decide
  obtain ⟨hlow, _, n, r, hn, hrem, _, hdel, _, hoff⟩ :=
    C16_remove_prunes_dead_suffix _ ['c', 'a', 't'] hs
  simp only [Option.some.injEq, Trie.mk.injEq] at hn
  subst hn
  have hr : r = removePath (some (insertPath (insertPath nodeCreate
      (wordPath ['c', 'a', 't'])) (wordPath ['c', 'a', 'r']))) (wordPath ['c', 'a', 't']) := by
    rw [trieRemove_eq (isValid_some.1 (by decide))] at hrem
    simp only [Except.ok.injEq, Option.some.injEq, Trie.mk.injEq] at hrem
    exact hrem.symm
  refine ⟨_, _, r, trieInsert_eq (isValid_some.1 (by decide)) nodeCreate,
    trieInsert_eq (isValid_some.1 (by decide)) _, hlow, hs, hrem,
    ?_, ?_, hoff _ (by decide)⟩
  · rw [hr]; rfl
  · rw [hr]; decide

/-! ## Insertion against removal and against other words -/

/-- C17, as stated for every non-empty valid lowercase word, fails on a lowercase word of
32768 letters: on the trie that holds "b", where `trieSearch` of the long word answers false
at its first letter, `trieInsert` of it wraps the `short` counter of the validation, reads
before the word and does not return, so no removal can follow. -/
theorem C17_long_word_insert_faults :
    ∃ obj, trieInsert trieCreate (some ['b']) = .ok obj ∧ Reachable obj ∧
      trieSearch obj (some ['b']) = .ok true ∧
      (∀ c ∈ longWord, IsLowercase c) ∧ longWord ≠ [] ∧ longWord.length = 32768 ∧
      trieSearch obj (some longWord) = .ok false ∧
      trieInsert obj (some longWord) = .error .outOfBounds := by
  have hins : trieInsert trieCreate (some ['b'])
      = .ok (some { root := some (insertPath nodeCreate (wordPath ['b'])) }) :=
    trieInsert_eq (isValid_some.1 (by decide)) nodeCreate
  have hreach : Reachable (some { root := some (insertPath nodeCreate (wordPath ['b'])) }) :=
    Reachable.insert _ _ _ Reachable.create hins
  refine ⟨_, hins, hreach, by decide, isLowercase_longWord, longWord_ne_nil, length_longWord,
    ?_, trieInsert_longWord _⟩
  rw [trieSearch_eq_fits isLowercase_longWord _ (walkFits_reachable hreach _)]
  rfl

/-- C17 (amended): for every trie obtained from `trieCreate` by `trieInsert` and `trieRemove`
calls that return and that stores at least one word, and every lowercase word `w` of at most
32767 characters (the words for which `isValidLowercaseWord` returns true, the empty word
included) with `trieSearch` of `w` false, `trieInsert` of `w` followed by `trieRemove` of `w`
returns the very trie it started from. -/
theorem C17_remove_undoes_insert (obj : Option Trie) (w : List Char)
    (hreach : Reachable obj) (hstores : ∃ v, trieSearch obj (some v) = .ok true)
    (hvalid : isValidLowercaseWord (some w) = .ok true)
    (hnot : trieSearch obj (some w) = .ok false) :
    ∃ obj1, trieInsert obj (some w) = .ok obj1 ∧ trieRemove obj1 (some w) = .ok obj := by
  obtain ⟨v, hv⟩ := hstores
  obtain ⟨_, n, rfl, hve⟩ := trieSearch_true hv
  have hw := isValid_some.1 hvalid
  rw [trieSearch_eq hw] at hnot
  have hwe : endAt (some n) (wordPath w) = false := by simpa using hnot
  have hd := (noDead_root n).1 (noDead_reachable hreach)
  refine ⟨_, trieInsert_eq hw n, ?_⟩
  rw [trieRemove_eq hw]
  simp only [removePath_insertPath_not_stored (wordPath w) hd (alive_of_endAt hve) hwe]

/-- C17 (amended) at the trie holding "dog" and the word "cat". -/
theorem C17_remove_undoes_insert_witness :
    ∃ obj, trieInsert trieCreate (some ['d', 'o', 'g']) = .ok obj ∧ Reachable obj ∧
      trieSearch obj (some ['d', 'o', 'g']) = .ok true ∧
      isValidLowercaseWord (some ['c', 'a', 't']) = .ok true ∧
      trieSearch obj (some ['c', 'a', 't']) = .ok false ∧
      ∃ obj1, trieInsert obj (some ['c', 'a', 't']) = .ok obj1 ∧
        trieRemove obj1 (some ['c', 'a', 't']) = .ok obj := by
  have hreach : Reachable (some { root := some (insertPath nodeCreate
      (wordPath ['d', 'o', 'g'])) }) :=
    Reachable.insert _ _ _ Reachable.create
      (trieInsert_eq (isValid_some.1 (by decide)) nodeCreate)
  exact ⟨_, trieInsert_eq (isValid_some.1 (by decide)) nodeCreate, hreach, by decide,
    by decide, by decide,
    C17_remove_undoes_insert _ ['c', 'a', 't'] hreach ⟨['d', 'o', 'g'], by decide⟩
      (by decide) (by decide)⟩

/-- C18, as stated for every word `w` and every lowercase word `v`, fails on words of 32768
letters.  `trieInsert` of the lowercase word of 32768 letters on the fresh trie wraps the
`short` counter of the validation, reads before the word and does not return.  And on a trie
whose path of the letter `a` is 32768 links deep, `trieSearch` of the word `v` of 32768
letters `a` wraps its `short` index and gives no answer to compare, before or after any
insertion. -/
theorem C18_long_word_faults :
    rootPresent trieCreate = true ∧ (∀ c ∈ longWord, IsLowercase c) ∧
      longWord.length = 32768 ∧
      trieInsert trieCreate (some longWord) = .error .outOfBounds ∧
      rootPresent (some { root := some (chainNode 32768) }) = true ∧
      (∀ c ∈ List.replicate 32768 'a', IsLowercase c) ∧
      trieSearch (some { root := some (chainNode 32768) }) (some (List.replicate 32768 'a'))
        = .error .outOfBounds :=
  ⟨rfl, isLowercase_longWord, length_longWord, trieInsert_longWord _, rfl,
    isLowercase_replicate_a _, trieSearch_chain_fault⟩

/-- C18 (amended): on every trie with a present root `trieInsert` returns for every word
that is NULL or has at most 32767 characters (invalid words included) and leaves the answer
of `trieSearch` unchanged for every lowercase word `v` of at most 32767 characters other
than the inserted one; and after `trieInsert` of a non-empty lowercase word `w` of at most
32767 characters, `trieSearch` of `v` is true iff `v = w` or `v` was stored before. -/
theorem C18_insert_keeps_other_words (obj : Option Trie) (word : CString) (v : List Char)
    (hroot : rootPresent obj = true) (hlen : ∀ w, word = some w → w.length ≤ 32767)
    (hv : isValidLowercaseWord (some v) = .ok true) :
    ∃ obj1 b b1, trieInsert obj word = .ok obj1 ∧ trieSearch obj (some v) = .ok b ∧
      trieSearch obj1 (some v) = .ok b1 ∧ (some v ≠ word → b1 = b) ∧
      (∀ w, word = some w → isValidLowercaseWord (some w) = .ok true → w ≠ [] →
        (b1 = true ↔ (v = w ∨ b = true))) := by
  obtain ⟨n, rfl⟩ := rootPresent_iff.1 hroot
  have hv1 := isValid_some.1 hv
  obtain ⟨valid, hval⟩ := isValid_returns word hlen
  cases valid with
  | false =>
    refine ⟨_, _, _, trieInsert_invalid _ hval, trieSearch_eq hv1 _, trieSearch_eq hv1 _,
      fun _ => rfl, ?_⟩
    intro w hw hwv _
    rw [hw, hwv] at hval
    cases hval
  | true =>
    obtain ⟨w, rfl, hw1⟩ := isValid_none_or_short hval
    refine ⟨_, _, _, trieInsert_eq hw1 n, trieSearch_eq hv1 _, trieSearch_eq hv1 _, ?_, ?_⟩
    · intro hne
      have hp : wordPath v ≠ wordPath w :=
        fun h => hne (congrArg some (wordPath_injective hv1.1 hw1.1 h))
      exact endAt_insertPath_other n hp
    · intro w1 hw hwv hne
      cases hw
      by_cases hvw : v = w
      · subst hvw
        have hp : wordPath v ≠ [] := by
          cases v with
          | nil => exact absurd rfl hne
          | cons c rest => simp [wordPath]
        simp [endAt_insertPath n hp]
      · have hp : wordPath v ≠ wordPath w :=
          fun h => hvw (wordPath_injective hv1.1 hw1.1 h)
        simp only [endAt_insertPath_other n hp, hvw, false_or]

/-- C18 (amended) at the fresh trie, inserting "cat" and searching "car". -/
theorem C18_insert_keeps_other_words_witness :
    rootPresent trieCreate = true ∧ ['c', 'a', 't'].length ≤ 32767 ∧
      isValidLowercaseWord (some ['c', 'a', 'r']) = .ok true ∧
      ∃ obj1, trieInsert trieCreate (some ['c', 'a', 't']) = .ok obj1 ∧
        trieSearch trieCreate (some ['c', 'a', 'r']) = .ok false ∧
        trieSearch obj1 (some ['c', 'a', 'r']) = .ok false := by
  obtain ⟨obj1, b, b1, h1, h2, h3, h4, _⟩ :=
    C18_insert_keeps_other_words trieCreate (some ['c', 'a', 't']) ['c', 'a', 'r'] rfl
      (fun w h => by cases h; decide) (by decide)
  have hb : trieSearch trieCreate (some ['c', 'a', 'r']) = .ok false := by decide
  rw [hb] at h2
  cases h2
  rw [h4 (by decide)] at h3
  exact ⟨rfl, by decide, by decide, obj1, h1, hb, h3⟩

/-! ## Allocation failure during an insertion -/

end TrieC
